import Mathlib

/-!
# Verification of the Backend-Infrastructure-Toolkit cores

Shallow embedding of the three cores of the repository
(`LRUcache_system.py`, `message_queue.py`, `log_analytics_engine.py`)
and proofs of the behavioural claims about them.

Modelling conventions:
* Python `time.time()` instants and float durations are rationals (`Time := ℚ`);
  each operation takes the wall-clock instant it runs at as an explicit argument.
* Python `None` becomes `Option.none`; fallible operations return `Option`/`Except`.
* The `OrderedDict` backing the cache is an association list whose head is the
  least-recently-used binding and whose last element is the most recent one.
* Event hooks (`on_hit`, `on_expire`, ...) are recorded in a ghost `events`
  trace instead of calling observer objects; an event in the trace corresponds
  to the hook invocation in the source.
* `pickle.dumps`-based size estimation is an abstract estimator `calcSize`
  carried by the cache instance.
-/

set_option maxHeartbeats 1000000
set_option linter.unusedSectionVars false
set_option linter.unusedVariables false

abbrev Time := ℚ

/-! ## LRU cache core (`LRUcache_system.py`) -/

/-- `CacheEntry` from `LRUcache_system.py` (value, access/creation time,
optional TTL, access count, size estimate in bytes). -/
structure CacheEntry (V : Type) where
  value : V
  access_time : Time
  creation_time : Time
  ttl : Option Time
  access_count : Nat
  size : Nat

/-- `CacheEntry.is_expired`: `ttl is not None and time.time() > creation_time + ttl`. -/
def CacheEntry.is_expired {V : Type} (e : CacheEntry V) (now : Time) : Bool :=
  match e.ttl with
  | none => false
  | some t => decide (now > e.creation_time + t)

/-- `CacheMetrics` counters.  `total_size` is a Python `int` that is freely
incremented and decremented, so it is modelled as `Int`. -/
structure CacheMetrics where
  hits : Nat
  misses : Nat
  sets : Nat
  deletes : Nat
  evictions : Nat
  expirations : Nat
  total_size : Int
  peak_size : Int

def CacheMetrics.initial : CacheMetrics :=
  ⟨0, 0, 0, 0, 0, 0, 0, 0⟩

/-- Ghost record of a fired cache hook (`CacheHook.on_hit` etc.). -/
inductive CacheEvent (K : Type) where
  | hit (k : K)
  | miss (k : K)
  | set (k : K)
  | delete (k : K)
  | expire (k : K)
  | evict (k : K)
deriving DecidableEq

/-- The `LRUCache` instance state: configuration, the ordered mapping
(head = least recently used), optional metrics and the ghost hook trace. -/
structure LRUCache (K V : Type) where
  max_size : Nat
  default_ttl : Option Time
  max_memory_bytes : Option ℚ
  calcSize : V → Nat
  cache : List (K × CacheEntry V)
  metrics : Option CacheMetrics
  events : List (CacheEvent K)

/-- `LRUCache.__init__`.  Note the source computes
`max_memory_mb * 1024 * 1024 if max_memory_mb else None`, so a `0` megabyte
bound is falsy and yields no byte bound. -/
def LRUCache.init {K V : Type} (max_size : Nat) (default_ttl : Option Time)
    (enable_metrics : Bool) (max_memory_mb : Option ℚ) (calcSize : V → Nat) :
    LRUCache K V :=
  { max_size := max_size
    default_ttl := default_ttl
    max_memory_bytes :=
      match max_memory_mb with
      | none => none
      | some mb => if mb = 0 then none else some (mb * 1024 * 1024)
    calcSize := calcSize
    cache := []
    metrics := if enable_metrics then some CacheMetrics.initial else none
    events := [] }

section AssocList

variable {K A : Type} [DecidableEq K]

/-- Dictionary lookup `d[k]` / `k in d` on the association list. -/
def assocFind (l : List (K × A)) (k : K) : Option A :=
  match l with
  | [] => none
  | (k', a) :: rest => if k' = k then some a else assocFind rest k

/-- Dictionary removal `d.pop(k)` (removes the binding of `k`). -/
def assocErase (l : List (K × A)) (k : K) : List (K × A) :=
  match l with
  | [] => []
  | (k', a) :: rest => if k' = k then rest else (k', a) :: assocErase rest k

/-- Dictionary assignment `d[k] = a`: replaces in place if the key is present,
otherwise appends at the end (insertion order). -/
def assocSet (l : List (K × A)) (k : K) (a : A) : List (K × A) :=
  match l with
  | [] => [(k, a)]
  | (k', a') :: rest => if k' = k then (k, a) :: rest else (k', a') :: assocSet rest k a

end AssocList

section CacheOps

variable {K V : Type} [DecidableEq K]

/-- Apply `f` to the metrics when they are enabled (`if self.metrics:`). -/
def LRUCache.mapMetrics (st : LRUCache K V) (f : CacheMetrics → CacheMetrics) :
    LRUCache K V :=
  { st with metrics := st.metrics.map f }

/-- `LRUCache._check_memory_limit`. -/
def LRUCache.check_memory_limit (st : LRUCache K V) : Bool :=
  match st.max_memory_bytes with
  | none => false
  | some cap =>
    match st.metrics with
    | some m => decide ((m.total_size : ℚ) > cap)
    | none => false

/-- `LRUCache._evict_lru`: pop the first (least recently used) binding,
fire the evict hook, bump `evictions` and subtract the entry size. -/
def LRUCache.evict_lru (st : LRUCache K V) : LRUCache K V :=
  match st.cache with
  | [] => st
  | (k, e) :: rest =>
    { st with
      cache := rest
      events := st.events ++ [CacheEvent.evict k]
      metrics := st.metrics.map fun m =>
        { m with evictions := m.evictions + 1, total_size := m.total_size - e.size } }

/-- Loop condition of the eviction loop in `LRUCache.set`. -/
def LRUCache.evictCond (st : LRUCache K V) : Bool :=
  decide (st.cache.length > st.max_size) || st.check_memory_limit

/-- Fuel-bounded unfolding of the eviction loop; each iteration of the source
loop removes one entry, so `length + 1` units of fuel always suffice. -/
def LRUCache.evictLoop : Nat → LRUCache K V → LRUCache K V
  | 0, st => st
  | Nat.succ n, st => if st.evictCond then LRUCache.evictLoop n st.evict_lru else st

/-- The `while len(self._cache) > self.max_size or self._check_memory_limit():
self._evict_lru()` loop of `LRUCache.set`.  When the condition holds on an
empty cache the source loops forever (`_evict_lru` is a no-op there); the model
returns the state unchanged at that point. -/
def LRUCache.evictWhile (st : LRUCache K V) : LRUCache K V :=
  st.evictLoop (st.cache.length + 1)

/-- `LRUCache.set`. -/
def LRUCache.set (st : LRUCache K V) (k : K) (v : V) (ttl : Option Time)
    (now : Time) : LRUCache K V :=
  let effective_ttl := match ttl with | some t => some t | none => st.default_ttl
  let entry_size := st.calcSize v
  let entry : CacheEntry V :=
    { value := v, access_time := now, creation_time := now, ttl := effective_ttl
      access_count := 1, size := entry_size }
  -- existing key: subtract the replaced entry's size
  let st1 :=
    match assocFind st.cache k with
    | some old => st.mapMetrics fun m => { m with total_size := m.total_size - old.size }
    | none => st
  -- `self._cache[key] = entry` followed by `move_to_end` puts the binding last
  let st2 : LRUCache K V :=
    { st1 with cache := assocErase st1.cache k ++ [(k, entry)] }
  let st3 := st2.mapMetrics fun m =>
    { m with
      sets := m.sets + 1
      total_size := m.total_size + entry_size
      peak_size := max m.peak_size (m.total_size + entry_size) }
  let st4 := st3.evictWhile
  { st4 with events := st4.events ++ [CacheEvent.set k] }

/-- `LRUCache.get`: returns the value (or the caller-supplied default)
together with the successor state. -/
def LRUCache.get (st : LRUCache K V) (k : K) (default : V) (now : Time) :
    V × LRUCache K V :=
  match assocFind st.cache k with
  | none =>
    (default,
      { st with
        events := st.events ++ [CacheEvent.miss k]
        metrics := st.metrics.map fun m => { m with misses := m.misses + 1 } })
  | some e =>
    if e.is_expired now then
      (default,
        { st with
          cache := assocErase st.cache k
          events := st.events ++ [CacheEvent.expire k, CacheEvent.miss k]
          metrics := st.metrics.map fun m =>
            { m with misses := m.misses + 1, expirations := m.expirations + 1 } })
    else
      let e' := { e with access_time := now, access_count := e.access_count + 1 }
      (e.value,
        { st with
          cache := assocErase st.cache k ++ [(k, e')]
          events := st.events ++ [CacheEvent.hit k]
          metrics := st.metrics.map fun m => { m with hits := m.hits + 1 } })

/-- `LRUCache.delete`. -/
def LRUCache.delete (st : LRUCache K V) (k : K) : Bool × LRUCache K V :=
  match assocFind st.cache k with
  | none => (false, st)
  | some e =>
    (true,
      { st with
        cache := assocErase st.cache k
        events := st.events ++ [CacheEvent.delete k]
        metrics := st.metrics.map fun m =>
          { m with deletes := m.deletes + 1, total_size := m.total_size - e.size } })

/-- `LRUCache.clear`: empty the mapping and zero `total_size` (the other
counters are kept). -/
def LRUCache.clear (st : LRUCache K V) : LRUCache K V :=
  { st with
    cache := []
    metrics := st.metrics.map fun m => { m with total_size := 0 } }

/-- `LRUCache.exists`: present and not expired; an expired entry is removed on
the way (firing the expire hook and bumping `expirations`). -/
def LRUCache.existsKey (st : LRUCache K V) (k : K) (now : Time) :
    Bool × LRUCache K V :=
  match assocFind st.cache k with
  | none => (false, st)
  | some e =>
    if e.is_expired now then
      (false,
        { st with
          cache := assocErase st.cache k
          events := st.events ++ [CacheEvent.expire k]
          metrics := st.metrics.map fun m => { m with expirations := m.expirations + 1 } })
    else (true, st)

/-- Shared removal step of `keys`/`values`/`items`/`_cleanup_expired`:
drop every expired binding, fire `expire` for each and count them. -/
def LRUCache.purgeExpired (st : LRUCache K V) (now : Time) : LRUCache K V :=
  let expired := st.cache.filter fun p => p.2.is_expired now
  { st with
    cache := st.cache.filter fun p => !p.2.is_expired now
    events := st.events ++ expired.map fun p => CacheEvent.expire p.1
    metrics := st.metrics.map fun m =>
      { m with expirations := m.expirations + expired.length } }

/-- `LRUCache.keys`. -/
def LRUCache.keys (st : LRUCache K V) (now : Time) : List K × LRUCache K V :=
  (((st.cache.filter fun p => !p.2.is_expired now).map Prod.fst), st.purgeExpired now)

/-- `LRUCache.values`. -/
def LRUCache.values (st : LRUCache K V) (now : Time) : List V × LRUCache K V :=
  (((st.cache.filter fun p => !p.2.is_expired now).map fun p => p.2.value),
    st.purgeExpired now)

/-- `LRUCache.items`. -/
def LRUCache.items (st : LRUCache K V) (now : Time) : List (K × V) × LRUCache K V :=
  (((st.cache.filter fun p => !p.2.is_expired now).map fun p => (p.1, p.2.value)),
    st.purgeExpired now)

/-- `LRUCache._cleanup_expired` (the background sweeper's scan). -/
def LRUCache.cleanup_expired (st : LRUCache K V) (now : Time) : LRUCache K V :=
  st.purgeExpired now

/-- `LRUCache.memory_usage`. -/
def LRUCache.memory_usage (st : LRUCache K V) : Int :=
  match st.metrics with
  | some m => m.total_size
  | none => 0

/-- `LRUCache.set_many`. -/
def LRUCache.set_many (st : LRUCache K V) (items : List (K × V))
    (ttl : Option Time) (now : Time) : LRUCache K V :=
  items.foldl (fun acc p => acc.set p.1 p.2 ttl now) st

end CacheOps

section CacheSerialization

variable {V : Type}

/-- One record of the snapshot blob: `{value, creation_time, ttl, access_count}`
keyed by the string form of the key. -/
structure SerEntry (V : Type) where
  value : V
  creation_time : Time
  ttl : Option Time
  access_count : Nat

/-- `LRUCache.serialize`: the snapshot lists every non-expired binding in
cache order.  Keys are already strings (`str(key)` is the identity here). -/
def LRUCache.serialize (st : LRUCache String V) (now : Time) :
    List (String × SerEntry V) :=
  (st.cache.filter fun p => !p.2.is_expired now).map fun p =>
    (p.1, ⟨p.2.value, p.2.creation_time, p.2.ttl, p.2.access_count⟩)

/-- `LRUCache.deserialize`: skip records already past their deadline
(`current_time > creation_time + ttl`), rebuild the others.  No eviction and
no metrics accounting happens here, exactly as in the source. -/
def LRUCache.deserialize (st : LRUCache String V)
    (data : List (String × SerEntry V)) (now : Time) : LRUCache String V :=
  data.foldl
    (fun acc p =>
      let r := p.2
      let skip : Bool :=
        match r.ttl with
        | some t => decide (now > r.creation_time + t)
        | none => false
      if skip then acc
      else
        { acc with
          cache := assocSet acc.cache p.1
            ⟨r.value, now, r.creation_time, r.ttl, r.access_count,
              acc.calcSize r.value⟩ })
    st

end CacheSerialization

section CacheOptionValued

variable {K B : Type} [DecidableEq K]

/-- `LRUCache.get_many` (values live in `Option B`: Python `None` is `none`).
`if value is not None: result[key] = value` drops `None` values. -/
def LRUCache.get_many (st : LRUCache K (Option B)) (ks : List K) (now : Time) :
    List (K × Option B) × LRUCache K (Option B) :=
  ks.foldl
    (fun acc k =>
      let r := acc.2.get k none now
      (match r.1 with
       | some b => acc.1 ++ [(k, some b)]
       | none => acc.1, r.2))
    ([], st)

/-- `LRUCache.__getitem__`: `value = self.get(key)`; a `None` result raises
`KeyError` (modelled as `Except.error ()`). -/
def LRUCache.getitem (st : LRUCache K (Option B)) (k : K) (now : Time) :
    Except Unit (Option B) × LRUCache K (Option B) :=
  let r := st.get k none now
  (match r.1 with
   | none => Except.error ()
   | some b => Except.ok (some b), r.2)

end CacheOptionValued

/-! ## Association-list lemmas -/

section AssocLemmas

variable {K A : Type} [DecidableEq K]

theorem assocFind_eq_none_of_not_mem {l : List (K × A)} {k : K}
    (h : k ∉ l.map Prod.fst) : assocFind l k = none := by
  induction l with
  | nil => rfl
  | cons p rest ih =>
    obtain ⟨k', a⟩ := p
    simp only [List.map_cons, List.mem_cons, not_or] at h
    have hk : k' ≠ k := fun hh => h.1 hh.symm
    simp only [assocFind, if_neg hk, ih h.2]

theorem assocErase_eq_self_of_find_none {l : List (K × A)} {k : K}
    (h : assocFind l k = none) : assocErase l k = l := by
  induction l with
  | nil => rfl
  | cons p rest ih =>
    obtain ⟨k', a⟩ := p
    by_cases hk : k' = k
    · simp [assocFind, hk] at h
    · simp only [assocFind, if_neg hk] at h
      simp only [assocErase, if_neg hk, ih h]

theorem assocFind_assocErase_self {l : List (K × A)} {k : K}
    (h : (l.map Prod.fst).Nodup) : assocFind (assocErase l k) k = none := by
  induction l with
  | nil => rfl
  | cons p rest ih =>
    obtain ⟨k', a⟩ := p
    simp only [List.map_cons, List.nodup_cons] at h
    by_cases hk : k' = k
    · subst hk
      simp only [assocErase, if_pos rfl]
      exact assocFind_eq_none_of_not_mem h.1
    · simp only [assocErase, if_neg hk, assocFind, if_neg hk]
      exact ih h.2

theorem assocErase_length_of_find {l : List (K × A)} {k : K} {a : A}
    (h : assocFind l k = some a) :
    (assocErase l k).length + 1 = l.length := by
  induction l with
  | nil => simp [assocFind] at h
  | cons p rest ih =>
    obtain ⟨k', a'⟩ := p
    by_cases hk : k' = k
    · simp [assocErase, if_pos hk]
    · simp only [assocFind, if_neg hk] at h
      simp only [assocErase, if_neg hk, List.length_cons, ih h]

theorem assocFind_append_left {l₁ l₂ : List (K × A)} {k : K} {a : A}
    (h : assocFind l₁ k = some a) : assocFind (l₁ ++ l₂) k = some a := by
  induction l₁ with
  | nil => simp [assocFind] at h
  | cons p rest ih =>
    obtain ⟨k', a'⟩ := p
    by_cases hk : k' = k
    · simp_all [assocFind]
    · simp only [assocFind, if_neg hk] at h
      simp only [List.cons_append, assocFind, if_neg hk]
      exact ih h

theorem assocFind_append_right {l₁ l₂ : List (K × A)} {k : K}
    (h : assocFind l₁ k = none) : assocFind (l₁ ++ l₂) k = assocFind l₂ k := by
  induction l₁ with
  | nil => rfl
  | cons p rest ih =>
    obtain ⟨k', a'⟩ := p
    by_cases hk : k' = k
    · simp [assocFind, hk] at h
    · simp only [assocFind, if_neg hk] at h
      simp only [List.cons_append, assocFind, if_neg hk]
      exact ih h

theorem assocFind_assocSet (l : List (K × A)) (k k' : K) (a : A) :
    assocFind (assocSet l k a) k' =
      if k = k' then some a else assocFind l k' := by
  induction l with
  | nil => simp [assocSet, assocFind]
  | cons p rest ih =>
    obtain ⟨k₀, a₀⟩ := p
    by_cases h0 : k₀ = k
    · subst h0
      by_cases h1 : k₀ = k'
      · simp [assocSet, assocFind, h1]
      · simp [assocSet, assocFind, h1]
    · by_cases h1 : k₀ = k'
      · have h2 : ¬(k = k') := fun hh => h0 (h1.trans hh.symm)
        have h3 : ¬(k' = k) := fun hh => h2 hh.symm
        simp [assocSet, assocFind, h0, h1, h2, h3]
      · simp [assocSet, assocFind, h0, h1, ih]

end AssocLemmas

/-! ## Cache claim C7: a hit on an expired entry is a miss plus one expiration -/

theorem assocFind_filter_eq_none {K A : Type} [DecidableEq K]
    {l : List (K × A)} {k : K} {a : A} {p : K × A → Bool}
    (hnd : (l.map Prod.fst).Nodup) (hfind : assocFind l k = some a)
    (hp : p (k, a) = false) : assocFind (l.filter p) k = none := by
  induction l with
  | nil => simp [assocFind] at hfind
  | cons q rest ih =>
    obtain ⟨k', a'⟩ := q
    simp only [List.map_cons, List.nodup_cons] at hnd
    by_cases hk : k' = k
    · subst hk
      have ha : a' = a := by simpa [assocFind] using hfind
      subst ha
      rw [List.filter_cons]
      rw [hp]
      exact assocFind_eq_none_of_not_mem
        (fun hmem => hnd.1 (by
          have : k' ∈ (rest.filter p).map Prod.fst := hmem
          have := List.mem_map.mp this
          obtain ⟨q, hq, hq2⟩ := this
          exact List.mem_map.mpr ⟨q, List.mem_of_mem_filter hq, hq2⟩))
    · simp only [assocFind, if_neg hk] at hfind
      rw [List.filter_cons]
      cases hpc : p (k', a') with
      | true => simp only [assocFind, if_neg hk]; exact ih hnd.2 hfind
      | false => exact ih hnd.2 hfind

/-- C7: for every cache and every key whose entry is expired
(`ttl ≠ none` and `now > creation_time + ttl`), `get(key, default)` removes the
entry, fires the expire hook, records exactly one miss and one expiration (and
no hit), and returns the caller-supplied default. -/
theorem C7_expired_get_is_miss_plus_expiration {K V : Type} [DecidableEq K]
    (st : LRUCache K V) (k : K) (default : V) (now : Time)
    (e : CacheEntry V) (m : CacheMetrics)
    (hnd : (st.cache.map Prod.fst).Nodup)
    (hfind : assocFind st.cache k = some e)
    (hexp : e.is_expired now = true)
    (hm : st.metrics = some m) :
    (st.get k default now).1 = default ∧
    assocFind (st.get k default now).2.cache k = none ∧
    (st.get k default now).2.events =
      st.events ++ [CacheEvent.expire k, CacheEvent.miss k] ∧
    (st.get k default now).2.metrics =
      some { m with misses := m.misses + 1, expirations := m.expirations + 1 } := by
  refine ⟨?_, ?_, ?_, ?_⟩
  · simp [LRUCache.get, hfind, hexp]
  · simp only [LRUCache.get, hfind, hexp, if_pos]
    exact assocFind_assocErase_self hnd
  · simp [LRUCache.get, hfind, hexp]
  · simp [LRUCache.get, hfind, hexp, hm]

def c7entry : CacheEntry Nat :=
  { value := 70, access_time := 0, creation_time := 0, ttl := some 1
    access_count := 1, size := 3 }

def c7state : LRUCache Nat Nat :=
  { max_size := 10, default_ttl := none, max_memory_bytes := none
    calcSize := fun _ => 3, cache := [(7, c7entry)]
    metrics := some ⟨0, 0, 1, 0, 0, 0, 3, 3⟩, events := [] }

theorem C7_expired_get_is_miss_plus_expiration_witness :
    (c7state.get 7 99 2).1 = 99 ∧
    assocFind (c7state.get 7 99 2).2.cache 7 = none ∧
    (c7state.get 7 99 2).2.events =
      c7state.events ++ [CacheEvent.expire 7, CacheEvent.miss 7] ∧
    (c7state.get 7 99 2).2.metrics = some ⟨0, 1, 1, 0, 0, 1, 3, 3⟩ :=
  C7_expired_get_is_miss_plus_expiration c7state 7 99 2 c7entry ⟨0, 0, 1, 0, 0, 0, 3, 3⟩
    (by decide) (by rfl) (by norm_num [c7entry, CacheEntry.is_expired]) (by rfl)

/-! ## Cache claim C10: a stored `None` value is indistinguishable from absence -/

/-- C10: for every cache and every key whose entry is present and unexpired but
stores `None`, `exists` answers true while `cache[k]` raises `KeyError`,
`get(k, default)` returns `None`, and `get_many([k])` omits the key. -/
theorem C10_stored_none_reads_as_absent {K B : Type} [DecidableEq K]
    (st : LRUCache K (Option B)) (k : K) (e : CacheEntry (Option B)) (now : Time)
    (hfind : assocFind st.cache k = some e)
    (hval : e.value = none)
    (hexp : e.is_expired now = false) :
    (st.existsKey k now).1 = true ∧
    (st.getitem k now).1 = Except.error () ∧
    (st.get k none now).1 = none ∧
    (st.get_many [k] now).1 = [] := by
  refine ⟨?_, ?_, ?_, ?_⟩
  · simp only [LRUCache.existsKey, hfind, hexp]
    simp
  · simp only [LRUCache.getitem, LRUCache.get, hfind, hexp]
    simp [hval]
  · simp only [LRUCache.get, hfind, hexp]
    simp [hval]
  · simp only [LRUCache.get_many, List.foldl, LRUCache.get, hfind, hexp]
    simp [hval]

def c10entry : CacheEntry (Option Nat) :=
  { value := none, access_time := 0, creation_time := 0, ttl := some 9
    access_count := 1, size := 1 }

def c10state : LRUCache Nat (Option Nat) :=
  { max_size := 10, default_ttl := none, max_memory_bytes := none
    calcSize := fun _ => 1, cache := [(4, c10entry)]
    metrics := some CacheMetrics.initial, events := [] }

theorem C10_stored_none_reads_as_absent_witness :
    (c10state.existsKey 4 1).1 = true ∧
    (c10state.getitem 4 1).1 = Except.error () ∧
    (c10state.get 4 none 1).1 = none ∧
    (c10state.get_many [4] 1).1 = [] :=
  C10_stored_none_reads_as_absent c10state 4 c10entry 1 (by rfl) (by rfl)
    (by norm_num [c10entry, CacheEntry.is_expired])

/-! ## Cache claim C9: expiry-driven removal never adjusts `total_size` -/

/-- C9 (amended): whenever an entry is removed because it is expired — via
`get`, `exists`, `keys`, `values`, `items`, or the cleanup sweep —
`metrics.total_size` is left unchanged (expiration never decrements it;
the decrements happen in `delete`, LRU eviction, `clear`, and replacement of
an existing key by `set`), so after an expiration `memory_usage()` still
includes the removed entry's size. -/
theorem C9_expiry_leaves_total_size {K V : Type} [DecidableEq K]
    (st : LRUCache K V) (k : K) (default : V) (now : Time)
    (e : CacheEntry V) (m : CacheMetrics)
    (hnd : (st.cache.map Prod.fst).Nodup)
    (hfind : assocFind st.cache k = some e)
    (hexp : e.is_expired now = true)
    (hm : st.metrics = some m) :
    st.memory_usage = m.total_size ∧
    (st.get k default now).2.memory_usage = m.total_size ∧
    (st.existsKey k now).2.memory_usage = m.total_size ∧
    (st.keys now).2.memory_usage = m.total_size ∧
    (st.values now).2.memory_usage = m.total_size ∧
    (st.items now).2.memory_usage = m.total_size ∧
    (st.cleanup_expired now).memory_usage = m.total_size ∧
    assocFind (st.get k default now).2.cache k = none ∧
    assocFind (st.cleanup_expired now).cache k = none := by
  refine ⟨?_, ?_, ?_, ?_, ?_, ?_, ?_, ?_, ?_⟩
  · simp [LRUCache.memory_usage, hm]
  · simp [LRUCache.get, hfind, hexp, LRUCache.memory_usage, hm]
  · simp [LRUCache.existsKey, hfind, hexp, LRUCache.memory_usage, hm]
  · simp [LRUCache.keys, LRUCache.purgeExpired, LRUCache.memory_usage, hm]
  · simp [LRUCache.values, LRUCache.purgeExpired, LRUCache.memory_usage, hm]
  · simp [LRUCache.items, LRUCache.purgeExpired, LRUCache.memory_usage, hm]
  · simp [LRUCache.cleanup_expired, LRUCache.purgeExpired, LRUCache.memory_usage, hm]
  · simp only [LRUCache.get, hfind, hexp, if_pos]
    exact assocFind_assocErase_self hnd
  · simp only [LRUCache.cleanup_expired, LRUCache.purgeExpired]
    exact assocFind_filter_eq_none hnd hfind (by simp [hexp])

def c9entry : CacheEntry Nat :=
  { value := 11, access_time := 0, creation_time := 0, ttl := some 1
    access_count := 1, size := 5 }

def c9state : LRUCache Nat Nat :=
  { max_size := 10, default_ttl := none, max_memory_bytes := none
    calcSize := fun _ => 5, cache := [(1, c9entry)]
    metrics := some ⟨0, 0, 1, 0, 0, 0, 5, 5⟩, events := [] }

theorem C9_expiry_leaves_total_size_witness :
    c9state.memory_usage = 5 ∧
    (c9state.get 1 0 2).2.memory_usage = 5 ∧
    (c9state.existsKey 1 2).2.memory_usage = 5 ∧
    (c9state.keys 2).2.memory_usage = 5 ∧
    (c9state.values 2).2.memory_usage = 5 ∧
    (c9state.items 2).2.memory_usage = 5 ∧
    (c9state.cleanup_expired 2).memory_usage = 5 ∧
    assocFind (c9state.get 1 0 2).2.cache 1 = none ∧
    assocFind (c9state.cleanup_expired 2).cache 1 = none :=
  C9_expiry_leaves_total_size c9state 1 0 2 c9entry ⟨0, 0, 1, 0, 0, 0, 5, 5⟩
    (by decide) (by rfl) (by norm_num [c9entry, CacheEntry.is_expired]) (by rfl)

/-- C9, counterexample to the parenthetical "only `delete` and LRU eviction
decrement `total_size`": `clear` zeroes `total_size` on a cache built by a
single `set`, while the `deletes` and `evictions` counters and the hook trace
are untouched (no delete and no eviction happened). -/
theorem C9_counterexample_clear_decrements :
    c9state.clear.memory_usage < c9state.memory_usage ∧
    c9state.clear.metrics.map (fun m => m.deletes) =
      c9state.metrics.map (fun m => m.deletes) ∧
    c9state.clear.metrics.map (fun m => m.evictions) =
      c9state.metrics.map (fun m => m.evictions) ∧
    c9state.clear.events = c9state.events := by
  refine ⟨by decide, rfl, rfl, rfl⟩

/-! ## Cache claim C8: snapshot/restore round-trip -/

theorem CacheEntry.is_expired_mono {V : Type} {e : CacheEntry V} {t₁ t₂ : Time}
    (h : e.is_expired t₁ = true) (hle : t₁ ≤ t₂) : e.is_expired t₂ = true := by
  cases htl : e.ttl with
  | none => simp [CacheEntry.is_expired, htl] at h
  | some t =>
    simp only [CacheEntry.is_expired, htl, decide_eq_true_eq, gt_iff_lt] at h ⊢
    exact lt_of_lt_of_le h hle

theorem serialize_find {V : Type} (l : List (String × CacheEntry V)) (now : Time)
    (k : String) (hnd : (l.map Prod.fst).Nodup) :
    assocFind
      ((l.filter fun p => !p.2.is_expired now).map fun p =>
        (p.1, (⟨p.2.value, p.2.creation_time, p.2.ttl, p.2.access_count⟩ : SerEntry V))) k
      = match assocFind l k with
        | some e =>
          if e.is_expired now then none
          else some ⟨e.value, e.creation_time, e.ttl, e.access_count⟩
        | none => none := by
  induction l with
  | nil => rfl
  | cons p rest ih =>
    obtain ⟨k', e'⟩ := p
    simp only [List.map_cons, List.nodup_cons] at hnd
    by_cases hk : k' = k
    · subst hk
      have hrest : assocFind
          ((rest.filter fun p => !p.2.is_expired now).map fun p =>
            (p.1, (⟨p.2.value, p.2.creation_time, p.2.ttl, p.2.access_count⟩ : SerEntry V))) k'
          = none := by
        apply assocFind_eq_none_of_not_mem
        rw [List.map_map]
        intro hmem
        obtain ⟨q, hq, hq2⟩ := List.mem_map.mp hmem
        exact hnd.1 (List.mem_map.mpr ⟨q, List.mem_of_mem_filter hq, hq2⟩)
      rw [List.filter_cons]
      cases hexp : e'.is_expired now with
      | true =>
        simp only [hexp, Bool.not_true, if_neg, assocFind, if_pos rfl,
          Bool.false_eq_true, ite_false]
        simpa [hexp] using hrest
      | false =>
        simp [assocFind, hexp]
    · rw [List.filter_cons]
      cases hexp : e'.is_expired now with
      | true =>
        simp only [hexp, Bool.not_true, Bool.false_eq_true, ite_false, assocFind,
          if_neg hk]
        exact ih hnd.2
      | false =>
        simp only [hexp, Bool.not_false, ite_true, List.map_cons, assocFind,
          if_neg hk]
        exact ih hnd.2

/-- The expiry test `deserialize` applies to a snapshot record. -/
def SerEntry.dropped {V : Type} (r : SerEntry V) (now : Time) : Bool :=
  match r.ttl with
  | some t => decide (now > r.creation_time + t)
  | none => false

theorem deserialize_find {V : Type} (data : List (String × SerEntry V))
    (st : LRUCache String V) (now : Time) (k : String)
    (hd : (data.map Prod.fst).Nodup) :
    assocFind (st.deserialize data now).cache k =
      match assocFind data k with
      | some r =>
        if r.dropped now then assocFind st.cache k
        else some ⟨r.value, now, r.creation_time, r.ttl, r.access_count,
          st.calcSize r.value⟩
      | none => assocFind st.cache k := by
  induction data generalizing st with
  | nil => rfl
  | cons p rest ih =>
    obtain ⟨k0, r⟩ := p
    simp only [List.map_cons, List.nodup_cons] at hd
    have hstep : st.deserialize ((k0, r) :: rest) now =
        (if r.dropped now then st
         else { st with cache := (assocSet st.cache k0
            ⟨r.value, now, r.creation_time, r.ttl, r.access_count,
              st.calcSize r.value⟩) }).deserialize rest now := by
      simp only [LRUCache.deserialize, List.foldl_cons, SerEntry.dropped]
    by_cases hk : k0 = k
    · subst hk
      have hrest : assocFind rest k0 = none :=
        assocFind_eq_none_of_not_mem hd.1
      rw [hstep]
      cases hdrop : r.dropped now with
      | true =>
        simp only [hdrop, if_true]
        rw [ih st hd.2, hrest]
        simp [assocFind, hdrop]
      | false =>
        simp only [hdrop, Bool.false_eq_true, if_false]
        rw [ih _ hd.2, hrest]
        simp [assocFind, hdrop, assocFind_assocSet]
    · rw [hstep]
      have hk' : ¬(k0 = k) := hk
      cases hdrop : r.dropped now with
      | true =>
        simp only [hdrop, if_true]
        rw [ih st hd.2]
        simp [assocFind, hk']
      | false =>
        simp only [hdrop, Bool.false_eq_true, if_false]
        rw [ih _ hd.2]
        cases hfr : assocFind rest k with
        | none =>
          simp [assocFind, hk', assocFind_assocSet]
          rw [hfr]
        | some r1 =>
          simp [assocFind, hk', assocFind_assocSet]
          rw [hfr]

/-- C8: restoring `deserialize(serialize())` into an empty cache re-creates
every entry that is not past its deadline at restore time with key, value,
`creation_time` and `ttl` (hence the deadline) unchanged, and drops every
entry whose `creation_time + ttl < now` at restore time. -/
theorem C8_snapshot_restore_roundtrip {V : Type}
    (src tgt : LRUCache String V) (t_ser t_des : Time)
    (hnd : (src.cache.map Prod.fst).Nodup)
    (hempty : tgt.cache = [])
    (hts : t_ser ≤ t_des) (k : String) :
    assocFind (tgt.deserialize (src.serialize t_ser) t_des).cache k =
      match assocFind src.cache k with
      | some e =>
        if e.is_expired t_des then none
        else some ⟨e.value, t_des, e.creation_time, e.ttl, e.access_count,
          tgt.calcSize e.value⟩
      | none => none := by
  have hser_nd : ((src.serialize t_ser).map Prod.fst).Nodup := by
    unfold LRUCache.serialize
    rw [List.map_map]
    have : ((src.cache.filter fun p => !p.2.is_expired t_ser).map Prod.fst).Nodup :=
      List.Nodup.sublist ((List.filter_sublist _).map Prod.fst) hnd
    simpa using this
  rw [deserialize_find _ _ _ _ hser_nd]
  unfold LRUCache.serialize
  rw [serialize_find _ _ _ hnd]
  cases hfind : assocFind src.cache k with
  | none => simp [hempty, assocFind]
  | some e =>
    cases hexp : e.is_expired t_ser with
    | true =>
      have h2 : e.is_expired t_des = true := CacheEntry.is_expired_mono hexp hts
      simp [hempty, assocFind, hexp, h2]
    | false =>
      have hdrop : (⟨e.value, e.creation_time, e.ttl, e.access_count⟩ :
          SerEntry V).dropped t_des = e.is_expired t_des := by
        cases htl : e.ttl with
        | none => simp [SerEntry.dropped, CacheEntry.is_expired, htl]
        | some t => simp [SerEntry.dropped, CacheEntry.is_expired, htl]
      cases hexp2 : e.is_expired t_des with
      | true => simp [hempty, assocFind, hexp, hdrop, hexp2]
      | false => simp [hexp, hdrop, hexp2]

def c8src : LRUCache String Nat :=
  { max_size := 10, default_ttl := none, max_memory_bytes := none
    calcSize := fun _ => 2
    cache := [("a", ⟨5, 0, 0, some 7, 3, 2⟩)]
    metrics := some CacheMetrics.initial, events := [] }

def c8tgt : LRUCache String Nat :=
  { max_size := 10, default_ttl := none, max_memory_bytes := none
    calcSize := fun _ => 4, cache := [], metrics := some CacheMetrics.initial
    events := [] }

theorem C8_snapshot_restore_roundtrip_witness :
    assocFind (c8tgt.deserialize (c8src.serialize 0) 1).cache "a" =
      match assocFind c8src.cache "a" with
      | some e =>
        if e.is_expired 1 then none
        else some ⟨e.value, 1, e.creation_time, e.ttl, e.access_count,
          c8tgt.calcSize e.value⟩
      | none => none :=
  C8_snapshot_restore_roundtrip c8src c8tgt 0 1 (by decide) rfl (by decide) "a"

/-! ## Cache claim C2: size and byte bounds -/

/-- Sum of the entry size estimates currently stored in the cache. -/
def entryBytes {K V : Type} (st : LRUCache K V) : Nat :=
  (st.cache.map fun p => p.2.size).sum

/-- The public operations claim C2 quantifies over (besides `deserialize`). -/
inductive CacheOp (K V : Type) where
  | setOp (k : K) (v : V) (ttl : Option Time) (now : Time)
  | setManyOp (items : List (K × V)) (ttl : Option Time) (now : Time)
  | getOp (k : K) (default : V) (now : Time)
  | deleteOp (k : K)
  | clearOp

def CacheOp.apply {K V : Type} [DecidableEq K] (st : LRUCache K V) :
    CacheOp K V → LRUCache K V
  | CacheOp.setOp k v ttl now => st.set k v ttl now
  | CacheOp.setManyOp items ttl now => st.set_many items ttl now
  | CacheOp.getOp k d now => (st.get k d now).2
  | CacheOp.deleteOp k => (st.delete k).2
  | CacheOp.clearOp => st.clear

def runCacheOps {K V : Type} [DecidableEq K] (st : LRUCache K V)
    (ops : List (CacheOp K V)) : LRUCache K V :=
  ops.foldl CacheOp.apply st

section CacheInvariant

variable {K V : Type} [DecidableEq K]

/-- Invariant carried through every public operation:
the entry count respects `max_size`; the byte counter dominated the actual
entry bytes; and either the counter respects the byte cap or the cache was
evicted down to empty. -/
def CacheInv (st : LRUCache K V) : Prop :=
  st.cache.length ≤ st.max_size ∧
  (∀ m, st.metrics = some m → (entryBytes st : Int) ≤ m.total_size) ∧
  (∀ m cap, st.metrics = some m → st.max_memory_bytes = some cap →
    ((m.total_size : ℚ) ≤ cap ∨ st.cache = []))

theorem sizes_erase {l : List (K × CacheEntry V)} {k : K} {e : CacheEntry V}
    (h : assocFind l k = some e) :
    ((assocErase l k).map fun p => p.2.size).sum + e.size =
      (l.map fun p => p.2.size).sum := by
  induction l with
  | nil => simp [assocFind] at h
  | cons p rest ih =>
    obtain ⟨k', a⟩ := p
    by_cases hk : k' = k
    · have ha : a = e := by simpa [assocFind, hk] using h
      subst ha
      simp [assocErase, hk, Nat.add_comm]
    · simp only [assocFind, if_neg hk] at h
      simp only [assocErase, if_neg hk, List.map_cons, List.sum_cons]
      have := ih h
      omega

theorem evict_lru_fields (st : LRUCache K V) :
    st.evict_lru.max_size = st.max_size ∧
    st.evict_lru.max_memory_bytes = st.max_memory_bytes ∧
    st.evict_lru.calcSize = st.calcSize := by
  unfold LRUCache.evict_lru
  match h : st.cache with
  | [] => exact ⟨rfl, rfl, rfl⟩
  | (k, e) :: rest => exact ⟨rfl, rfl, rfl⟩

theorem evict_lru_S {st : LRUCache K V}
    (h : ∀ m, st.metrics = some m → (entryBytes st : Int) ≤ m.total_size) :
    ∀ m, st.evict_lru.metrics = some m →
      (entryBytes st.evict_lru : Int) ≤ m.total_size := by
  match hc : st.cache with
  | [] =>
    have hev : st.evict_lru = st := by
      unfold LRUCache.evict_lru
      rw [hc]
    rw [hev]
    exact h
  | (k, e) :: rest =>
    have hev : st.evict_lru =
        { st with
          cache := rest
          events := st.events ++ [CacheEvent.evict k]
          metrics := st.metrics.map fun m =>
            { m with evictions := m.evictions + 1
                     total_size := m.total_size - e.size } } := by
      unfold LRUCache.evict_lru
      rw [hc]
    rw [hev]
    intro m hm
    simp only [Option.map_eq_some'] at hm
    obtain ⟨m0, hm0, hfm⟩ := hm
    have hS := h m0 hm0
    subst hfm
    simp only [entryBytes, hc, List.map_cons, List.sum_cons] at hS ⊢
    push_cast at hS ⊢
    omega

theorem evictLoop_S {n : Nat} {st : LRUCache K V}
    (h : ∀ m, st.metrics = some m → (entryBytes st : Int) ≤ m.total_size) :
    ∀ m, (st.evictLoop n).metrics = some m →
      (entryBytes (st.evictLoop n) : Int) ≤ m.total_size := by
  induction n generalizing st with
  | zero => exact h
  | succ n ih =>
    unfold LRUCache.evictLoop
    by_cases hc : st.evictCond
    · simp only [hc, if_true]
      exact ih (evict_lru_S h)
    · simp only [hc]
      simpa using h

theorem evictLoop_fields (n : Nat) (st : LRUCache K V) :
    (st.evictLoop n).max_size = st.max_size ∧
    (st.evictLoop n).max_memory_bytes = st.max_memory_bytes ∧
    (st.evictLoop n).calcSize = st.calcSize := by
  induction n generalizing st with
  | zero => exact ⟨rfl, rfl, rfl⟩
  | succ n ih =>
    unfold LRUCache.evictLoop
    by_cases hc : st.evictCond
    · simp only [hc, if_true]
      obtain ⟨h1, h2, h3⟩ := ih st.evict_lru
      obtain ⟨g1, g2, g3⟩ := evict_lru_fields st
      exact ⟨h1.trans g1, h2.trans g2, h3.trans g3⟩
    · simp only [hc]
      simp

theorem evictLoop_of_nil {n : Nat} {st : LRUCache K V} (h : st.cache = []) :
    st.evictLoop n = st := by
  induction n with
  | zero => rfl
  | succ n ih =>
    unfold LRUCache.evictLoop
    have hev : st.evict_lru = st := by
      unfold LRUCache.evict_lru
      rw [h]
    by_cases hc : st.evictCond
    · simp only [hc, if_true, hev, ih]
    · simp [hc]

theorem evictLoop_post {n : Nat} {st : LRUCache K V}
    (h : st.cache.length < n) :
    (st.evictLoop n).evictCond = false ∨ (st.evictLoop n).cache = [] := by
  induction n generalizing st with
  | zero => omega
  | succ n ih =>
    unfold LRUCache.evictLoop
    by_cases hc : st.evictCond
    · simp only [hc, if_true]
      match hcc : st.cache with
      | [] =>
        right
        have hev : st.evict_lru = st := by
          unfold LRUCache.evict_lru
          rw [hcc]
        rw [hev, evictLoop_of_nil hcc, hcc]
      | (k, e) :: rest =>
        have hlen : st.evict_lru.cache.length < n := by
          unfold LRUCache.evict_lru
          rw [hcc]
          rw [hcc] at h
          simp only [List.length_cons] at h ⊢
          omega
        exact ih hlen
    · rw [Bool.not_eq_true] at hc
      simp [hc]

theorem cond_false_len {st : LRUCache K V} (h : st.evictCond = false) :
    st.cache.length ≤ st.max_size := by
  unfold LRUCache.evictCond at h
  simp only [Bool.or_eq_false_iff, decide_eq_false_iff_not, not_lt] at h
  exact h.1

theorem cond_false_cap {st : LRUCache K V} (h : st.evictCond = false) :
    ∀ m cap, st.metrics = some m → st.max_memory_bytes = some cap →
      (m.total_size : ℚ) ≤ cap := by
  intro m cap hm hcap
  unfold LRUCache.evictCond LRUCache.check_memory_limit at h
  rw [hcap, hm] at h
  simp only [Bool.or_eq_false_iff, decide_eq_false_iff_not, not_lt] at h
  exact h.2

theorem CacheInv_set_events {st : LRUCache K V} (w : List (CacheEvent K)) :
    CacheInv { st with events := w } ↔ CacheInv st := Iff.rfl

theorem inv_after_evictWhile {st : LRUCache K V}
    (hS : ∀ m, st.metrics = some m → (entryBytes st : Int) ≤ m.total_size) :
    CacheInv st.evictWhile := by
  have hpost : st.evictWhile.evictCond = false ∨ st.evictWhile.cache = [] := by
    unfold LRUCache.evictWhile
    exact evictLoop_post (Nat.lt_succ_self _)
  have hS' : ∀ m, st.evictWhile.metrics = some m →
      (entryBytes st.evictWhile : Int) ≤ m.total_size := by
    unfold LRUCache.evictWhile
    exact evictLoop_S hS
  refine ⟨?_, hS', ?_⟩
  · cases hpost with
    | inl hc => exact cond_false_len hc
    | inr hnil => simp [hnil]
  · intro m cap hm hcap
    cases hpost with
    | inl hc => exact Or.inl (cond_false_cap hc m cap hm hcap)
    | inr hnil => exact Or.inr hnil

theorem set_inv {st : LRUCache K V} {k : K} {v : V} {ttl : Option Time}
    {now : Time} (h : CacheInv st) : CacheInv (st.set k v ttl now) := by
  obtain ⟨hL, hS, hC⟩ := h
  cases hf : assocFind st.cache k with
  | none =>
    simp only [LRUCache.set, hf]
    rw [CacheInv_set_events]
    apply inv_after_evictWhile
    intro m hm
    simp only [LRUCache.mapMetrics, Option.map_eq_some'] at hm
    obtain ⟨m0, hm0, hfm⟩ := hm
    subst hfm
    have hs0 := hS m0 hm0
    have her : assocErase st.cache k = st.cache := assocErase_eq_self_of_find_none hf
    simp only [entryBytes, LRUCache.mapMetrics, her, List.map_append, List.sum_append,
      List.map_cons, List.sum_cons, List.map_nil, List.sum_nil] at hs0 ⊢
    omega
  | some old =>
    simp only [LRUCache.set, hf]
    rw [CacheInv_set_events]
    apply inv_after_evictWhile
    intro m hm
    simp only [LRUCache.mapMetrics, Option.map_eq_some', Option.map_eq_some'] at hm
    obtain ⟨m1, hm1, hfm⟩ := hm
    obtain ⟨m0, hm0, hfm0⟩ := hm1
    subst hfm
    subst hfm0
    have hs0 := hS m0 hm0
    have her := sizes_erase hf
    simp only [entryBytes, LRUCache.mapMetrics, List.map_append, List.sum_append,
      List.map_cons, List.sum_cons, List.map_nil, List.sum_nil] at hs0 her ⊢
    omega

theorem get_inv {st : LRUCache K V} {k : K} {d : V} {now : Time}
    (h : CacheInv st) : CacheInv (st.get k d now).2 := by
  obtain ⟨hL, hS, hC⟩ := h
  cases hf : assocFind st.cache k with
  | none =>
    simp only [LRUCache.get, hf]
    refine ⟨hL, ?_, ?_⟩
    · intro m hm
      simp only [Option.map_eq_some'] at hm
      obtain ⟨m0, hm0, hfm⟩ := hm
      subst hfm
      exact hS m0 hm0
    · intro m cap hm hcap
      simp only [Option.map_eq_some'] at hm
      obtain ⟨m0, hm0, hfm⟩ := hm
      subst hfm
      exact hC m0 cap hm0 hcap
  | some e =>
    cases hexp : e.is_expired now with
    | true =>
      simp only [LRUCache.get, hf, hexp, if_true]
      have hlen := assocErase_length_of_find hf
      have hsz := sizes_erase hf
      refine ⟨by simp only; omega, ?_, ?_⟩
      · intro m hm
        simp only [Option.map_eq_some'] at hm
        obtain ⟨m0, hm0, hfm⟩ := hm
        subst hfm
        have hs0 := hS m0 hm0
        simp only [entryBytes] at hs0 ⊢
        omega
      · intro m cap hm hcap
        simp only [Option.map_eq_some'] at hm
        obtain ⟨m0, hm0, hfm⟩ := hm
        subst hfm
        cases hC m0 cap hm0 hcap with
        | inl hlt => exact Or.inl hlt
        | inr hnil => rw [hnil] at hf; simp [assocFind] at hf
    | false =>
      simp only [LRUCache.get, hf, hexp, Bool.false_eq_true, if_false]
      have hlen := assocErase_length_of_find hf
      have hsz := sizes_erase hf
      refine ⟨?_, ?_, ?_⟩
      · simp only [List.length_append, List.length_cons, List.length_nil]
        omega
      · intro m hm
        simp only [Option.map_eq_some'] at hm
        obtain ⟨m0, hm0, hfm⟩ := hm
        subst hfm
        have hs0 := hS m0 hm0
        simp only [entryBytes, List.map_append, List.sum_append, List.map_cons,
          List.sum_cons, List.map_nil, List.sum_nil] at hs0 ⊢
        omega
      · intro m cap hm hcap
        simp only [Option.map_eq_some'] at hm
        obtain ⟨m0, hm0, hfm⟩ := hm
        subst hfm
        cases hC m0 cap hm0 hcap with
        | inl hlt => exact Or.inl hlt
        | inr hnil => rw [hnil] at hf; simp [assocFind] at hf

theorem delete_inv {st : LRUCache K V} {k : K} (h : CacheInv st) :
    CacheInv (st.delete k).2 := by
  obtain ⟨hL, hS, hC⟩ := h
  cases hf : assocFind st.cache k with
  | none => simpa only [LRUCache.delete, hf] using ⟨hL, hS, hC⟩
  | some e =>
    simp only [LRUCache.delete, hf]
    have hlen := assocErase_length_of_find hf
    have hsz := sizes_erase hf
    refine ⟨by simp only; omega, ?_, ?_⟩
    · intro m hm
      simp only [Option.map_eq_some'] at hm
      obtain ⟨m0, hm0, hfm⟩ := hm
      subst hfm
      have hs0 := hS m0 hm0
      simp only [entryBytes] at hs0 ⊢
      omega
    · intro m cap hm hcap
      simp only [Option.map_eq_some'] at hm
      obtain ⟨m0, hm0, hfm⟩ := hm
      subst hfm
      cases hC m0 cap hm0 hcap with
      | inl hlt =>
        left
        simp only
        have : ((e.size : Int) : ℚ) ≥ 0 := by positivity
        push_cast at hlt ⊢
        linarith
      | inr hnil => rw [hnil] at hf; simp [assocFind] at hf

theorem clear_inv {st : LRUCache K V} (_h : CacheInv st) : CacheInv st.clear := by
  refine ⟨by simp [LRUCache.clear], ?_, ?_⟩
  · intro m hm
    simp only [LRUCache.clear, Option.map_eq_some'] at hm
    obtain ⟨m0, hm0, hfm⟩ := hm
    subst hfm
    simp [entryBytes, LRUCache.clear]
  · intro m cap hm hcap
    right
    simp [LRUCache.clear]

theorem set_many_inv {st : LRUCache K V} {items : List (K × V)}
    {ttl : Option Time} {now : Time} (h : CacheInv st) :
    CacheInv (st.set_many items ttl now) := by
  induction items generalizing st with
  | nil => exact h
  | cons p rest ih =>
    simp only [LRUCache.set_many, List.foldl_cons]
    exact ih (set_inv h)

theorem applyOp_inv {st : LRUCache K V} {op : CacheOp K V} (h : CacheInv st) :
    CacheInv (CacheOp.apply st op) := by
  cases op with
  | setOp k v ttl now => exact set_inv h
  | setManyOp items ttl now => exact set_many_inv h
  | getOp k d now => exact get_inv h
  | deleteOp k => exact delete_inv h
  | clearOp => exact clear_inv h

theorem runCacheOps_inv {st : LRUCache K V} {ops : List (CacheOp K V)}
    (h : CacheInv st) : CacheInv (runCacheOps st ops) := by
  induction ops generalizing st with
  | nil => exact h
  | cons op rest ih =>
    simp only [runCacheOps, List.foldl_cons]
    exact ih (applyOp_inv h)

theorem init_inv {ms : Nat} {dttl : Option Time} {em : Bool} {mm : Option ℚ}
    {cs : V → Nat} : CacheInv (LRUCache.init ms dttl em mm cs : LRUCache K V) := by
  refine ⟨by simp [LRUCache.init], ?_, ?_⟩
  · intro m hm
    cases em with
    | true =>
      simp only [LRUCache.init, if_true, Option.some.injEq] at hm
      subst hm
      simp [entryBytes, LRUCache.init, CacheMetrics.initial]
    | false => simp [LRUCache.init] at hm
  · intro m cap hm hcap
    right
    simp [LRUCache.init]

theorem applyOp_fields {st : LRUCache K V} (op : CacheOp K V) :
    (CacheOp.apply st op).max_size = st.max_size := by
  cases op with
  | setOp k v ttl now =>
    cases hf : assocFind st.cache k with
    | none =>
      simp only [CacheOp.apply, LRUCache.set, hf, LRUCache.evictWhile]
      exact (evictLoop_fields _ _).1
    | some old =>
      simp only [CacheOp.apply, LRUCache.set, hf, LRUCache.evictWhile]
      exact (evictLoop_fields _ _).1
  | setManyOp items ttl now =>
    simp only [CacheOp.apply]
    induction items generalizing st with
    | nil => rfl
    | cons p rest ih =>
      simp only [LRUCache.set_many, List.foldl_cons]
      have h1 : (LRUCache.set_many (st.set p.1 p.2 ttl now) rest ttl now).max_size
          = (st.set p.1 p.2 ttl now).max_size := ih
      have h2 : (st.set p.1 p.2 ttl now).max_size = st.max_size := by
        cases hf : assocFind st.cache p.1 with
        | none =>
          simp only [LRUCache.set, hf, LRUCache.evictWhile]
          exact (evictLoop_fields _ _).1
        | some old =>
          simp only [LRUCache.set, hf, LRUCache.evictWhile]
          exact (evictLoop_fields _ _).1
      exact h1.trans h2
  | getOp k d now =>
    cases hf : assocFind st.cache k with
    | none => simp [CacheOp.apply, LRUCache.get, hf]
    | some e =>
      cases hexp : e.is_expired now with
      | true => simp [CacheOp.apply, LRUCache.get, hf, hexp]
      | false => simp [CacheOp.apply, LRUCache.get, hf, hexp]
  | deleteOp k =>
    cases hf : assocFind st.cache k with
    | none => simp [CacheOp.apply, LRUCache.delete, hf]
    | some e => simp [CacheOp.apply, LRUCache.delete, hf]
  | clearOp => rfl

theorem runCacheOps_max_size (st : LRUCache K V) (ops : List (CacheOp K V)) :
    (runCacheOps st ops).max_size = st.max_size := by
  induction ops generalizing st with
  | nil => rfl
  | cons op rest ih =>
    simp only [runCacheOps, List.foldl_cons]
    exact ((ih (CacheOp.apply st op)).trans (applyOp_fields op))

end CacheInvariant

/-- C2 (amended): starting from a freshly constructed cache, after any sequence
of `set`, `set_many`, `get`, `delete` and `clear` operations the entry count is
at most `max_size`, and — when a byte cap is configured and metrics are enabled
(the source only enforces the cap through `metrics.total_size`) — the sum of
the stored entries' size estimates is at most the cap.  `deserialize` is
excluded: it rebuilds entries with no eviction and no size accounting. -/
theorem C2_size_and_byte_bounds {K V : Type} [DecidableEq K]
    (ops : List (CacheOp K V)) (ms : Nat) (dttl : Option Time) (em : Bool)
    (mm : Option ℚ) (cs : V → Nat) :
    (runCacheOps (LRUCache.init ms dttl em mm cs) ops).cache.length ≤ ms ∧
    (∀ m cap,
      (runCacheOps (LRUCache.init ms dttl em mm cs) ops).metrics = some m →
      (runCacheOps (LRUCache.init ms dttl em mm cs) ops).max_memory_bytes = some cap →
      0 ≤ cap →
      (entryBytes (runCacheOps (LRUCache.init ms dttl em mm cs) ops) : ℚ) ≤ cap) := by
  have hinv : CacheInv (runCacheOps (LRUCache.init ms dttl em mm cs) ops) :=
    runCacheOps_inv init_inv
  obtain ⟨hL, hS, hC⟩ := hinv
  constructor
  · calc (runCacheOps (LRUCache.init ms dttl em mm cs) ops).cache.length
        ≤ (runCacheOps (LRUCache.init ms dttl em mm cs) ops).max_size := hL
      _ = ms := by rw [runCacheOps_max_size]; simp [LRUCache.init]
  · intro m cap hm hcap hcap0
    cases hC m cap hm hcap with
    | inl hle =>
      have h1 := hS m hm
      have h2 : ((entryBytes (runCacheOps (LRUCache.init ms dttl em mm cs) ops) : Int) : ℚ)
          ≤ (m.total_size : ℚ) := by exact_mod_cast h1
      have h3 : ((entryBytes (runCacheOps (LRUCache.init ms dttl em mm cs) ops) : Int) : ℚ)
          = (entryBytes (runCacheOps (LRUCache.init ms dttl em mm cs) ops) : ℚ) := by
        push_cast
        rfl
      rw [h3] at h2
      exact h2.trans hle
    | inr hnil =>
      simp only [entryBytes, hnil, List.map_nil, List.sum_nil, Nat.cast_zero]
      exact hcap0

theorem C2_size_and_byte_bounds_witness :
    (runCacheOps (LRUCache.init 2 none true (some 1) (fun _ => 1) : LRUCache Nat Nat)
      [CacheOp.clearOp]).cache.length ≤ 2 ∧
    (entryBytes (runCacheOps (LRUCache.init 2 none true (some 1) (fun _ => 1) :
      LRUCache Nat Nat) [CacheOp.clearOp]) : ℚ) ≤ 1 * 1024 * 1024 :=
  ⟨(C2_size_and_byte_bounds [CacheOp.clearOp] 2 none true (some 1) (fun _ => 1)).1,
   (C2_size_and_byte_bounds [CacheOp.clearOp] 2 none true (some 1) (fun _ => 1)).2
     ⟨0, 0, 0, 0, 0, 0, 0, 0⟩ (1 * 1024 * 1024)
     (by norm_num [runCacheOps, CacheOp.apply, LRUCache.clear, LRUCache.init,
       CacheMetrics.initial])
     (by norm_num [runCacheOps, CacheOp.apply, LRUCache.clear, LRUCache.init])
     (by norm_num)⟩

/-- C2, counterexample: `deserialize` violates the `max_size` bound — restoring
a two-record snapshot into a cache constructed with `max_size = 1` leaves two
entries in it. -/
theorem C2_counterexample_deserialize_exceeds_max_size :
    ¬ (((LRUCache.init 1 none true none (fun _ => 1) : LRUCache String Nat).deserialize
        [("a", ⟨1, 0, none, 0⟩), ("b", ⟨2, 0, none, 0⟩)] 5).cache.length ≤
      ((LRUCache.init 1 none true none (fun _ => 1) : LRUCache String Nat).deserialize
        [("a", ⟨1, 0, none, 0⟩), ("b", ⟨2, 0, none, 0⟩)] 5).max_size) := by
  decide

/-! ## Log analytics core (`log_analytics_engine.py`) -/

/-- `LogEntry`.  `parsed_time` is the instant `__post_init__` derives from the
timestamp string (falling back to "now" when parsing fails); the parsing
itself is outside the model, so the instant is carried as a field. -/
structure LogEntry where
  timestamp : String
  level : String
  message : String
  source : String
  thread_id : Option String
  request_id : Option String
  user_id : Option String
  tags : List String
  parsed_time : Time
deriving DecidableEq

/-- `LogEntry.__eq__` / `__hash__` identity: (timestamp, level, message, source). -/
def LogEntry.pyEq (a b : LogEntry) : Bool :=
  decide (a.timestamp = b.timestamp) && decide (a.level = b.level) &&
    decide (a.message = b.message) && decide (a.source = b.source)

/-- `LogEntry.severity_score`. -/
def LogEntry.severity_score (e : LogEntry) : Nat :=
  let u := e.level.toUpper
  if u = "TRACE" then 0
  else if u = "DEBUG" then 10
  else if u = "INFO" then 20
  else if u = "WARN" then 30
  else if u = "WARNING" then 30
  else if u = "ERROR" then 40
  else if u = "FATAL" then 50
  else if u = "CRITICAL" then 50
  else 20

/-- The conditions mapping of an alert rule; a missing key imposes nothing. -/
structure AlertConditions where
  level : Option String
  source : Option String
  min_severity : Option Nat
  tags : Option (List String)
  keywords : Option (List String)

/-- `LogEntry.matches_filter` over a conditions mapping. -/
def LogEntry.matches_filter (e : LogEntry) (c : AlertConditions) : Bool :=
  (match c.level with | some v => decide (e.level = v) | none => true) &&
  (match c.source with | some v => decide (e.source = v) | none => true) &&
  (match c.min_severity with
   | some v => decide (v ≤ e.severity_score) | none => true) &&
  (match c.tags with
   | some ts => ts.any (fun t => decide (t ∈ e.tags)) | none => true) &&
  (match c.keywords with
   | some ks => ks.any (fun kw => decide ((kw.toLower).toList <:+: (e.message.toLower).toList))
   | none => true)

inductive AlertSeverity where
  | low | medium | high | critical
deriving DecidableEq

/-- `AlertRule`. -/
structure AlertRule where
  name : String
  description : String
  conditions : AlertConditions
  severity : AlertSeverity
  threshold : Nat
  time_window : Time
  cooldown : Time
  enabled : Bool
  last_triggered : Option Time

/-- `AlertRule.should_trigger`.  The cooldown guard is
`if self.last_triggered and (current_time - self.last_triggered) < self.cooldown`;
Python truthiness makes a stored `0.0` behave like `None` there. -/
def AlertRule.should_trigger (r : AlertRule) (count : Nat) (current_time : Time) :
    Bool :=
  if !r.enabled then false
  else if count < r.threshold then false
  else
    match r.last_triggered with
    | some t => if t ≠ 0 && decide (current_time - t < r.cooldown) then false else true
    | none => true

/-- `Alert` (the human-readable f-string message is presentation and is not
modelled; its inputs `rule_name` and `count` are). -/
structure Alert where
  rule_name : String
  severity : AlertSeverity
  triggered_at : Time
  count : Nat
  sample_logs : List LogEntry

/-! ### The time index: `BinarySearchTree` (AVL over timestamp strings) -/

/-- `Node.value`: a bare value for a unique key, a Python list once the key has
duplicates (`isinstance(node.value, list)` distinguishes the two). -/
inductive NodeValue where
  | single (e : LogEntry)
  | many (l : List LogEntry)

/-- Appending a duplicate key's value as in `BinarySearchTree._insert`. -/
def NodeValue.push (v : NodeValue) (e : LogEntry) : NodeValue :=
  match v with
  | NodeValue.many l => NodeValue.many (l ++ [e])
  | NodeValue.single a => NodeValue.many [a, e]

/-- The values collected by `range_query` at one node. -/
def NodeValue.toList : NodeValue → List LogEntry
  | NodeValue.single e => [e]
  | NodeValue.many l => l

/-- `BinarySearchTree.Node` / `None`. -/
inductive BST where
  | leaf
  | node (left : BST) (key : String) (value : NodeValue) (height : Nat) (right : BST)

/-- `BinarySearchTree._height`. -/
def BST.heightOf : BST → Nat
  | BST.leaf => 0
  | BST.node _ _ _ h _ => h

/-- `BinarySearchTree._balance`. -/
def BST.balanceOf : BST → Int
  | BST.leaf => 0
  | BST.node l _ _ _ r => (BST.heightOf l : Int) - BST.heightOf r

/-- `BinarySearchTree._rotate_right`.  The source dereferences `y.left`; it is
only called when the left child exists, so the impossible shapes return the
input unchanged. -/
def BST.rotate_right : BST → BST
  | BST.node (BST.node ll xk xv _ xr) yk yv _ yr =>
    let y' := BST.node xr yk yv (1 + max (BST.heightOf xr) (BST.heightOf yr)) yr
    BST.node ll xk xv (1 + max (BST.heightOf ll) (BST.heightOf y')) y'
  | t => t

/-- `BinarySearchTree._rotate_left`. -/
def BST.rotate_left : BST → BST
  | BST.node xl xk xv _ (BST.node rl zk zv _ rr) =>
    let x' := BST.node xl xk xv (1 + max (BST.heightOf xl) (BST.heightOf rl)) rl
    BST.node x' zk zv (1 + max (BST.heightOf x') (BST.heightOf rr)) rr
  | t => t

/-- Key of the root, used by the rebalancing case split (`node.left.key` /
`node.right.key`); `none` for the missing child the source would crash on. -/
def BST.rootKey : BST → Option String
  | BST.leaf => none
  | BST.node _ k _ _ _ => some k

/-- The four AVL rebalancing cases at the end of `_insert`. -/
def BST.rebalance (t : BST) (key : String) : BST :=
  match t with
  | BST.leaf => BST.leaf
  | BST.node l k v h r =>
    let t' := BST.node l k v h r
    let balance := BST.balanceOf t'
    if decide (balance > 1) &&
        (match l.rootKey with | some lk => decide (key < lk) | none => false) then
      t'.rotate_right
    else if decide (balance < -1) &&
        (match r.rootKey with | some rk => decide (rk < key) | none => false) then
      t'.rotate_left
    else if decide (balance > 1) &&
        (match l.rootKey with | some lk => decide (lk < key) | none => false) then
      (BST.node l.rotate_left k v h r).rotate_right
    else if decide (balance < -1) &&
        (match r.rootKey with | some rk => decide (key < rk) | none => false) then
      (BST.node l k v h r.rotate_right).rotate_left
    else t'

/-- `BinarySearchTree._insert` (recursive insert, height update, rebalance;
duplicate keys append into the node's value list and return early). -/
def BST.insertAux : BST → String → LogEntry → BST
  | BST.leaf, key, value => BST.node BST.leaf key (NodeValue.single value) 1 BST.leaf
  | BST.node l k v h r, key, value =>
    if key < k then
      let nl := BST.insertAux l key value
      BST.rebalance (BST.node nl k v (1 + max (BST.heightOf nl) (BST.heightOf r)) r) key
    else if k < key then
      let nr := BST.insertAux r key value
      BST.rebalance (BST.node l k v (1 + max (BST.heightOf l) (BST.heightOf nr)) nr) key
    else BST.node l k (v.push value) h r

/-- `BinarySearchTree.insert`. -/
def BST.insert (t : BST) (key : String) (value : LogEntry) : BST :=
  BST.insertAux t key value

/-- `BinarySearchTree._range_query` / `range_query`: collect every value whose
key lies in `[start, stop]`, left subtree first, then the node, then right. -/
def BST.range_query : BST → String → String → List LogEntry
  | BST.leaf, _, _ => []
  | BST.node l k v _ r, start, stop =>
    (if start < k then BST.range_query l start stop else []) ++
    (if start ≤ k ∧ k ≤ stop then v.toList else []) ++
    (if k < stop then BST.range_query r start stop else [])

/-! ### The engine -/

/-- `LogAnalyticsEngine` state; the `defaultdict` secondary indexes are
association lists (a missing key denotes the default empty list/set). -/
structure LogAnalyticsEngine where
  time_index : BST
  level_index : List (String × List LogEntry)
  source_index : List (String × List LogEntry)
  keyword_index : List (String × List LogEntry)
  all_logs : List LogEntry
  alert_rules : List AlertRule
  triggered_alerts : List Alert

/-- `defaultdict(list)[k].append(e)`. -/
def indexAppend (idx : List (String × List LogEntry)) (k : String) (e : LogEntry) :
    List (String × List LogEntry) :=
  assocSet idx k (((assocFind idx k).getD []) ++ [e])

/-- `defaultdict(set)[k].add(e)`; set membership follows the source's
`LogEntry.__eq__` identity (`pyEq`). -/
def indexAddToSet (idx : List (String × List LogEntry)) (k : String) (e : LogEntry) :
    List (String × List LogEntry) :=
  let cur := (assocFind idx k).getD []
  assocSet idx k (if cur.any (fun x => x.pyEq e) then cur else cur ++ [e])

/-- `\w`-character test for `re.findall(r'\w+', ...)` (letters, digits,
underscore). -/
def isWordChar (c : Char) : Bool := c.isAlphanum || c = '_'

/-- Maximal runs of word characters, in order of appearance. -/
def splitWordsAux : List Char → List Char → List (List Char)
  | [], acc => if acc.isEmpty then [] else [acc.reverse]
  | c :: rest, acc =>
    if isWordChar c then splitWordsAux rest (c :: acc)
    else if acc.isEmpty then splitWordsAux rest []
    else acc.reverse :: splitWordsAux rest []

/-- `set(re.findall(r'\w+', s.lower()))`: the distinct lower-cased word tokens. -/
def tokenizeWords (s : String) : List String :=
  ((splitWordsAux s.toLower.toList []).map fun l => String.mk l).dedup

/-- Newest-to-oldest scan of one rule in `_check_alerts`: walk the reversed
log list, stop at the first entry whose parsed time predates the window start,
count matches and keep up to five samples (most recent first). -/
def checkRuleScan (c : AlertConditions) (window_start : Time) :
    List LogEntry → Nat → List LogEntry → Nat × List LogEntry
  | [], count, samples => (count, samples)
  | l :: rest, count, samples =>
    if l.parsed_time < window_start then (count, samples)
    else if l.matches_filter c then
      checkRuleScan c window_start rest (count + 1)
        (if samples.length < 5 then samples ++ [l] else samples)
    else checkRuleScan c window_start rest count samples

/-- One rule's pass in `_check_alerts`: the updated rule and the alert it
emits, if any. -/
def processRule (logs : List LogEntry) (now : Time) (r : AlertRule) :
    AlertRule × Option Alert :=
  if !r.enabled then (r, none)
  else
    let window_start := now - r.time_window
    let scan := checkRuleScan r.conditions window_start logs.reverse 0 []
    if r.should_trigger scan.1 now then
      ({ r with last_triggered := some now },
        some ⟨r.name, r.severity, now, scan.1, scan.2.reverse⟩)
    else (r, none)

/-- `LogAnalyticsEngine._check_alerts` (`log` is the just-ingested entry; the
source takes it as a parameter but scans `all_logs`). -/
def LogAnalyticsEngine.check_alerts (st : LogAnalyticsEngine) (_log : LogEntry)
    (now : Time) : LogAnalyticsEngine :=
  { st with
    alert_rules := st.alert_rules.map fun r => (processRule st.all_logs now r).1
    triggered_alerts := st.triggered_alerts ++
      st.alert_rules.filterMap fun r => (processRule st.all_logs now r).2 }

/-- `LogAnalyticsEngine.ingest_log`. -/
def LogAnalyticsEngine.ingest_log (st : LogAnalyticsEngine) (log : LogEntry)
    (now : Time) : LogAnalyticsEngine :=
  let st1 := { st with all_logs := st.all_logs ++ [log] }
  let st2 := { st1 with time_index := st1.time_index.insert log.timestamp log }
  let st3 := { st2 with level_index := indexAppend st2.level_index log.level.toUpper log }
  -- `if log.source:` — the empty string is falsy
  let st4 :=
    if log.source ≠ "" then
      { st3 with source_index := indexAppend st3.source_index log.source log }
    else st3
  let st5 := { st4 with
    keyword_index := (tokenizeWords log.message).foldl
      (fun idx w => indexAddToSet idx w log) st4.keyword_index }
  st5.check_alerts log now

/-- `LogAnalyticsEngine.add_alert_rule`. -/
def LogAnalyticsEngine.add_alert_rule (st : LogAnalyticsEngine) (r : AlertRule) :
    LogAnalyticsEngine :=
  { st with alert_rules := st.alert_rules ++ [r] }

/-- `LogAnalyticsEngine.__init__`. -/
def LogAnalyticsEngine.initial : LogAnalyticsEngine :=
  ⟨BST.leaf, [], [], [], [], [], []⟩

/-- The filters mapping of `query_logs`; a missing key imposes nothing. -/
structure QueryFilters where
  start_time : Option String
  end_time : Option String
  level : Option String
  source : Option String
  keyword : Option String
  tags : Option (List String)
  min_severity : Option Nat

/-- `LogAnalyticsEngine.query_logs`: the time index is engaged only when both
bounds are present; the remaining filters are conjunctive list filters. -/
def LogAnalyticsEngine.query_logs (st : LogAnalyticsEngine) (f : QueryFilters) :
    List LogEntry :=
  let logs :=
    match f.start_time, f.end_time with
    | some s, some e => st.time_index.range_query s e
    | _, _ => st.all_logs
  let logs :=
    match f.level with
    | some lv => logs.filter fun l => l.level.toUpper = lv.toUpper
    | none => logs
  let logs :=
    match f.source with
    | some s => logs.filter fun l => l.source = s
    | none => logs
  let logs :=
    match f.keyword with
    | some kw => logs.filter fun l =>
        decide ((kw.toLower).toList <:+: (l.message.toLower).toList)
    | none => logs
  let logs :=
    match f.tags with
    | some ts => logs.filter fun l => l.tags.any fun t => decide (t ∈ ts)
    | none => logs
  let logs :=
    match f.min_severity with
    | some ms => logs.filter fun l => decide (ms ≤ l.severity_score)
    | none => logs
  logs

/-- Engine-level operations a client can interleave (ingesting and adding
rules). -/
inductive EngineOp where
  | ingest (e : LogEntry) (now : Time)
  | addRule (r : AlertRule)

def EngineOp.apply (st : LogAnalyticsEngine) : EngineOp → LogAnalyticsEngine
  | EngineOp.ingest e now => st.ingest_log e now
  | EngineOp.addRule r => st.add_alert_rule r

def runEngineOps (st : LogAnalyticsEngine) (ops : List EngineOp) :
    LogAnalyticsEngine :=
  ops.foldl EngineOp.apply st

/-! ## Log claim C5: a time-indexed entry is found by `range_query [T, T]` -/

/-- All keys of the tree satisfy `p`. -/
def BST.Forall (p : String → Prop) : BST → Prop
  | BST.leaf => True
  | BST.node l k _ _ r => p k ∧ BST.Forall p l ∧ BST.Forall p r

/-- Search-order invariant of the time index. -/
def BST.Ordered : BST → Prop
  | BST.leaf => True
  | BST.node l k _ _ r =>
    BST.Ordered l ∧ BST.Ordered r ∧
      BST.Forall (fun x => x < k) l ∧ BST.Forall (fun x => k < x) r

/-- `e` is stored in the tree under key `k`. -/
def BST.Holds (k : String) (e : LogEntry) : BST → Prop
  | BST.leaf => False
  | BST.node l k' v _ r =>
    (k = k' ∧ e ∈ v.toList) ∨ BST.Holds k e l ∨ BST.Holds k e r

theorem BST.Forall.imp {p q : String → Prop} (h : ∀ x, p x → q x) :
    ∀ {t : BST}, BST.Forall p t → BST.Forall q t
  | BST.leaf, _ => trivial
  | BST.node l k v ht r, ⟨hk, hl, hr⟩ =>
    ⟨h k hk, BST.Forall.imp h hl, BST.Forall.imp h hr⟩

theorem forall_rotate_right {p : String → Prop} {t : BST}
    (h : BST.Forall p t) : BST.Forall p t.rotate_right := by
  cases t with
  | leaf => exact h
  | node l yk yv yh yr =>
    cases l with
    | leaf => exact h
    | node ll xk xv xh xr =>
      obtain ⟨hyk, ⟨hxk, hll, hxr⟩, hyr⟩ := h
      exact ⟨hxk, hll, hyk, hxr, hyr⟩

theorem forall_rotate_left {p : String → Prop} {t : BST}
    (h : BST.Forall p t) : BST.Forall p t.rotate_left := by
  cases t with
  | leaf => exact h
  | node xl xk xv xh r =>
    cases r with
    | leaf => exact h
    | node rl zk zv zh rr =>
      obtain ⟨hxk, hxl, ⟨hzk, hrl, hrr⟩⟩ := h
      exact ⟨hzk, ⟨hxk, hxl, hrl⟩, hrr⟩

theorem ordered_rotate_right {t : BST} (h : BST.Ordered t) :
    BST.Ordered t.rotate_right := by
  cases t with
  | leaf => exact h
  | node l yk yv yh yr =>
    cases l with
    | leaf => exact h
    | node ll xk xv xh xr =>
      obtain ⟨⟨holl, hoxr, hfll, hfxr⟩, hoyr, ⟨hxky, hfll2, hfxr2⟩, hfyr⟩ := h
      refine ⟨holl, ⟨hoxr, hoyr, hfxr2, hfyr⟩, hfll, ?_⟩
      exact ⟨hxky, hfxr, BST.Forall.imp (fun x hx => lt_trans hxky hx) hfyr⟩

theorem ordered_rotate_left {t : BST} (h : BST.Ordered t) :
    BST.Ordered t.rotate_left := by
  cases t with
  | leaf => exact h
  | node xl xk xv xh r =>
    cases r with
    | leaf => exact h
    | node rl zk zv zh rr =>
      obtain ⟨hoxl, ⟨horl, horr, hfrl, hfrr⟩, hfxl, ⟨hxkz, hfrl2, hfrr2⟩⟩ := h
      refine ⟨⟨hoxl, horl, hfxl, hfrl2⟩, horr, ?_, hfrr⟩
      exact ⟨hxkz, BST.Forall.imp (fun x hx => lt_trans hx hxkz) hfxl, hfrl⟩

theorem holds_rotate_right {k : String} {e : LogEntry} {t : BST} :
    BST.Holds k e t.rotate_right ↔ BST.Holds k e t := by
  cases t with
  | leaf => exact Iff.rfl
  | node l yk yv yh yr =>
    cases l with
    | leaf => exact Iff.rfl
    | node ll xk xv xh xr =>
      simp only [BST.rotate_right, BST.Holds]
      tauto

theorem holds_rotate_left {k : String} {e : LogEntry} {t : BST} :
    BST.Holds k e t.rotate_left ↔ BST.Holds k e t := by
  cases t with
  | leaf => exact Iff.rfl
  | node xl xk xv xh r =>
    cases r with
    | leaf => exact Iff.rfl
    | node rl zk zv zh rr =>
      simp only [BST.rotate_left, BST.Holds]
      tauto

theorem rebalance_cases (l : BST) (k : String) (v : NodeValue) (h : Nat)
    (r : BST) (key : String) :
    BST.rebalance (BST.node l k v h r) key = (BST.node l k v h r).rotate_right ∨
    BST.rebalance (BST.node l k v h r) key = (BST.node l k v h r).rotate_left ∨
    BST.rebalance (BST.node l k v h r) key =
      (BST.node l.rotate_left k v h r).rotate_right ∨
    BST.rebalance (BST.node l k v h r) key =
      (BST.node l k v h r.rotate_right).rotate_left ∨
    BST.rebalance (BST.node l k v h r) key = BST.node l k v h r := by
  unfold BST.rebalance
  dsimp only
  split_ifs
  · exact Or.inl rfl
  · exact Or.inr (Or.inl rfl)
  · exact Or.inr (Or.inr (Or.inl rfl))
  · exact Or.inr (Or.inr (Or.inr (Or.inl rfl)))
  · exact Or.inr (Or.inr (Or.inr (Or.inr rfl)))

theorem forall_rebalance {p : String → Prop} {t : BST} {key : String}
    (h : BST.Forall p t) : BST.Forall p (t.rebalance key) := by
  cases t with
  | leaf => exact h
  | node l k v ht r =>
    obtain ⟨hk, hl, hr⟩ := h
    rcases rebalance_cases l k v ht r key with hc | hc | hc | hc | hc <;> rw [hc]
    · exact forall_rotate_right ⟨hk, hl, hr⟩
    · exact forall_rotate_left ⟨hk, hl, hr⟩
    · exact forall_rotate_right ⟨hk, forall_rotate_left hl, hr⟩
    · exact forall_rotate_left ⟨hk, hl, forall_rotate_right hr⟩
    · exact ⟨hk, hl, hr⟩

theorem ordered_rebalance {t : BST} {key : String} (h : BST.Ordered t) :
    BST.Ordered (t.rebalance key) := by
  cases t with
  | leaf => exact h
  | node l k v ht r =>
    obtain ⟨hol, hor, hfl, hfr⟩ := h
    rcases rebalance_cases l k v ht r key with hc | hc | hc | hc | hc <;> rw [hc]
    · exact ordered_rotate_right ⟨hol, hor, hfl, hfr⟩
    · exact ordered_rotate_left ⟨hol, hor, hfl, hfr⟩
    · exact ordered_rotate_right
        ⟨ordered_rotate_left hol, hor, forall_rotate_left hfl, hfr⟩
    · exact ordered_rotate_left
        ⟨hol, ordered_rotate_right hor, hfl, forall_rotate_right hfr⟩
    · exact ⟨hol, hor, hfl, hfr⟩

theorem holds_rebalance {k : String} {e : LogEntry} {t : BST} {key : String} :
    BST.Holds k e (t.rebalance key) ↔ BST.Holds k e t := by
  cases t with
  | leaf => exact Iff.rfl
  | node l k2 v ht r =>
    rcases rebalance_cases l k2 v ht r key with hc | hc | hc | hc | hc <;> rw [hc]
    · exact holds_rotate_right
    · exact holds_rotate_left
    · rw [holds_rotate_right]
      simp only [BST.Holds, holds_rotate_left]
    · rw [holds_rotate_left]
      simp only [BST.Holds, holds_rotate_right]

theorem forall_insert {p : String → Prop} {t : BST} {key : String}
    {e : LogEntry} (h : BST.Forall p t) (hk : p key) :
    BST.Forall p (BST.insertAux t key e) := by
  induction t with
  | leaf => exact ⟨hk, trivial, trivial⟩
  | node l k v ht r ihl ihr =>
    obtain ⟨hk', hl, hr⟩ := h
    unfold BST.insertAux
    by_cases h1 : key < k
    · simp only [h1, if_true]
      exact forall_rebalance ⟨hk', ihl hl, hr⟩
    · simp only [h1, if_false]
      by_cases h2 : k < key
      · simp only [h2, if_true]
        exact forall_rebalance ⟨hk', hl, ihr hr⟩
      · simp only [h2, if_false]
        exact ⟨hk', hl, hr⟩

theorem ordered_insert {t : BST} {key : String} {e : LogEntry}
    (h : BST.Ordered t) : BST.Ordered (BST.insertAux t key e) := by
  induction t with
  | leaf => exact ⟨trivial, trivial, trivial, trivial⟩
  | node l k v ht r ihl ihr =>
    obtain ⟨hol, hor, hfl, hfr⟩ := h
    unfold BST.insertAux
    by_cases h1 : key < k
    · simp only [h1, if_true]
      exact ordered_rebalance ⟨ihl hol, hor, forall_insert hfl h1, hfr⟩
    · simp only [h1, if_false]
      by_cases h2 : k < key
      · simp only [h2, if_true]
        exact ordered_rebalance ⟨hol, ihr hor, hfl, forall_insert hfr h2⟩
      · simp only [h2, if_false]
        exact ⟨hol, hor, hfl, hfr⟩

theorem holds_insert_self {t : BST} {key : String} {e : LogEntry} :
    BST.Holds key e (BST.insertAux t key e) := by
  induction t with
  | leaf => exact Or.inl ⟨rfl, by simp [NodeValue.toList]⟩
  | node l k v ht r ihl ihr =>
    unfold BST.insertAux
    by_cases h1 : key < k
    · simp only [h1, if_true]
      exact holds_rebalance.mpr (Or.inr (Or.inl ihl))
    · simp only [h1, if_false]
      by_cases h2 : k < key
      · simp only [h2, if_true]
        exact holds_rebalance.mpr (Or.inr (Or.inr ihr))
      · simp only [h2, if_false]
        have hk : key = k := le_antisymm (not_lt.mp h2) (not_lt.mp h1)
        left
        refine ⟨hk, ?_⟩
        cases v with
        | single a => simp [NodeValue.push, NodeValue.toList]
        | many xs => simp [NodeValue.push, NodeValue.toList]

theorem holds_insert_mono {t : BST} {key : String} {e : LogEntry}
    {k' : String} {e' : LogEntry} (h : BST.Holds k' e' t) :
    BST.Holds k' e' (BST.insertAux t key e) := by
  induction t with
  | leaf => cases h
  | node l k v ht r ihl ihr =>
    unfold BST.insertAux
    by_cases h1 : key < k
    · simp only [h1, if_true]
      refine holds_rebalance.mpr ?_
      rcases h with hmid | hl | hr
      · exact Or.inl hmid
      · exact Or.inr (Or.inl (ihl hl))
      · exact Or.inr (Or.inr hr)
    · simp only [h1, if_false]
      by_cases h2 : k < key
      · simp only [h2, if_true]
        refine holds_rebalance.mpr ?_
        rcases h with hmid | hl | hr
        · exact Or.inl hmid
        · exact Or.inr (Or.inl hl)
        · exact Or.inr (Or.inr (ihr hr))
      · simp only [h2, if_false]
        rcases h with ⟨hkk, hmem⟩ | hl | hr
        · left
          refine ⟨hkk, ?_⟩
          cases v with
          | single a =>
            simp only [NodeValue.toList, List.mem_singleton] at hmem
            simp [NodeValue.push, NodeValue.toList, hmem]
          | many xs =>
            simp only [NodeValue.toList] at hmem
            simp [NodeValue.push, NodeValue.toList, hmem]
        · exact Or.inr (Or.inl hl)
        · exact Or.inr (Or.inr hr)

theorem holds_forall {p : String → Prop} {t : BST} {k : String} {e : LogEntry}
    (hf : BST.Forall p t) (hh : BST.Holds k e t) : p k := by
  induction t with
  | leaf => cases hh
  | node l k' v ht r ihl ihr =>
    obtain ⟨hk', hl, hr⟩ := hf
    rcases hh with ⟨hkk, _⟩ | hh | hh
    · exact hkk ▸ hk'
    · exact ihl hl hh
    · exact ihr hr hh

theorem mem_range_query {t : BST} (hord : BST.Ordered t) {k : String}
    {e : LogEntry} (hh : BST.Holds k e t) {s stop : String}
    (hs : s ≤ k) (he : k ≤ stop) : e ∈ BST.range_query t s stop := by
  induction t with
  | leaf => cases hh
  | node l k' v ht r ihl ihr =>
    obtain ⟨hol, hor, hfl, hfr⟩ := hord
    unfold BST.range_query
    rcases hh with ⟨hkk, hmem⟩ | hl | hr
    · subst hkk
      have hmid : s ≤ k ∧ k ≤ stop := ⟨hs, he⟩
      simp only [hmid, and_self, if_true]
      exact List.mem_append.mpr (Or.inl (List.mem_append.mpr (Or.inr hmem)))
    · have hklt := holds_forall hfl hl
      have hcond : s < k' := lt_of_le_of_lt hs hklt
      simp only [hcond, if_true]
      exact List.mem_append.mpr (Or.inl (List.mem_append.mpr (Or.inl (ihl hol hl))))
    · have hkgt := holds_forall hfr hr
      have hcond : k' < stop := lt_of_lt_of_le hkgt he
      simp only [hcond, if_true]
      exact List.mem_append.mpr (Or.inr (ihr hor hr))

theorem ingest_time_index (st : LogAnalyticsEngine) (e : LogEntry) (now : Time) :
    (st.ingest_log e now).time_index = st.time_index.insert e.timestamp e := by
  simp only [LogAnalyticsEngine.ingest_log, LogAnalyticsEngine.check_alerts]
  by_cases h : e.source ≠ "" <;> simp [h]

theorem engineOp_ordered {st : LogAnalyticsEngine} {op : EngineOp}
    (h : BST.Ordered st.time_index) :
    BST.Ordered (EngineOp.apply st op).time_index := by
  cases op with
  | ingest e now =>
    simp only [EngineOp.apply, ingest_time_index]
    exact ordered_insert h
  | addRule r => exact h

theorem engineOp_holds {st : LogAnalyticsEngine} {op : EngineOp}
    {k : String} {e : LogEntry} (h : BST.Holds k e st.time_index) :
    BST.Holds k e (EngineOp.apply st op).time_index := by
  cases op with
  | ingest e' now =>
    simp only [EngineOp.apply, ingest_time_index]
    exact holds_insert_mono h
  | addRule r => exact h

theorem runEngineOps_ordered {st : LogAnalyticsEngine} {ops : List EngineOp}
    (h : BST.Ordered st.time_index) :
    BST.Ordered (runEngineOps st ops).time_index := by
  induction ops generalizing st with
  | nil => exact h
  | cons op rest ih =>
    simp only [runEngineOps, List.foldl_cons]
    exact ih (engineOp_ordered h)

theorem runEngineOps_holds {st : LogAnalyticsEngine} {ops : List EngineOp}
    {k : String} {e : LogEntry} (h : BST.Holds k e st.time_index) :
    BST.Holds k e (runEngineOps st ops).time_index := by
  induction ops generalizing st with
  | nil => exact h
  | cons op rest ih =>
    simp only [runEngineOps, List.foldl_cons]
    exact ih (engineOp_holds h)

/-- C5: for every reachable engine (any interleaving of ingests and rule
additions), after `ingest_log(E)` and any further operations, a query with
`{start_time: T, end_time: T}` for `T = E.timestamp` returns a list containing
`E` — the time index's `range_query(T, T)` discovers it, also when other
entries share the key `T`. -/
theorem C5_range_query_finds_ingested_entry (ops1 ops2 : List EngineOp)
    (E : LogEntry) (tE : Time) :
    E ∈ (runEngineOps LogAnalyticsEngine.initial
        (ops1 ++ EngineOp.ingest E tE :: ops2)).query_logs
      ⟨some E.timestamp, some E.timestamp, none, none, none, none, none⟩ := by
  have hq : ∀ st : LogAnalyticsEngine,
      st.query_logs ⟨some E.timestamp, some E.timestamp, none, none, none,
        none, none⟩ = st.time_index.range_query E.timestamp E.timestamp := by
    intro st
    rfl
  rw [hq]
  have hsplit : runEngineOps LogAnalyticsEngine.initial
      (ops1 ++ EngineOp.ingest E tE :: ops2) =
      runEngineOps (EngineOp.apply (runEngineOps LogAnalyticsEngine.initial ops1)
        (EngineOp.ingest E tE)) ops2 := by
    simp only [runEngineOps, List.foldl_append, List.foldl_cons]
  rw [hsplit]
  have hord1 : BST.Ordered (runEngineOps LogAnalyticsEngine.initial ops1).time_index :=
    runEngineOps_ordered trivial
  have hord2 : BST.Ordered (runEngineOps (EngineOp.apply
      (runEngineOps LogAnalyticsEngine.initial ops1)
      (EngineOp.ingest E tE)) ops2).time_index :=
    runEngineOps_ordered (engineOp_ordered hord1)
  have hh : BST.Holds E.timestamp E (EngineOp.apply
      (runEngineOps LogAnalyticsEngine.initial ops1)
      (EngineOp.ingest E tE)).time_index := by
    simp only [EngineOp.apply, ingest_time_index]
    exact holds_insert_self
  exact mem_range_query hord2 (runEngineOps_holds hh) le_rfl le_rfl

/-! ## Log claim C6: alert gating conditions -/

theorem checkRuleScan_le (c : AlertConditions) (ws : Time) (L : List LogEntry)
    (count0 : Nat) (samples0 : List LogEntry) :
    (checkRuleScan c ws L count0 samples0).1 ≤
      count0 + (L.filter fun l =>
        l.matches_filter c && decide (ws ≤ l.parsed_time)).length := by
  induction L generalizing count0 samples0 with
  | nil => simp [checkRuleScan]
  | cons l rest ih =>
    unfold checkRuleScan
    by_cases h1 : l.parsed_time < ws
    · simp only [h1, if_true]
      omega
    · simp only [h1, if_false]
      have hge : decide (ws ≤ l.parsed_time) = true := by
        simp [not_lt.mp h1]
      cases h2 : l.matches_filter c with
      | true =>
        simp only [if_true, List.filter_cons, h2, hge, Bool.and_self,
          List.length_cons]
        have := ih (count0 + 1)
          (if samples0.length < 5 then samples0 ++ [l] else samples0)
        omega
      | false =>
        simp only [Bool.false_eq_true, if_false, List.filter_cons, h2,
          Bool.false_and]
        exact ih count0 samples0

/-- C6 (amended): during an ingest, an Alert for a rule is emitted only if the
rule is enabled, the count of already-ingested entries matching the rule's
conditions whose parsed time is at least `now − time_window` (entries with
*future* parsed times included — the scan has no upper bound) is at least
`threshold`, and either `last_triggered` is unset or `now − last_triggered ≥
cooldown` (assuming any recorded `last_triggered` is a nonzero wall-clock
instant; Python truthiness treats a stored `0.0` as unset); when the Alert is
emitted, `last_triggered` is set to `now`.  The first conjunct grounds the
per-rule pass `processRule` in `ingest_log`. -/
theorem C6_alert_emission_gating (st : LogAnalyticsEngine) (log : LogEntry)
    (now : Time) (r : AlertRule)
    (hlast : r.last_triggered = none ∨ ∃ t, r.last_triggered = some t ∧ t ≠ 0) :
    (st.ingest_log log now).triggered_alerts =
      st.triggered_alerts ++ st.alert_rules.filterMap
        (fun r' => (processRule (st.all_logs ++ [log]) now r').2) ∧
    ((processRule (st.all_logs ++ [log]) now r).2.isSome = true →
      r.enabled = true ∧
      r.threshold ≤ ((st.all_logs ++ [log]).filter fun l =>
        l.matches_filter r.conditions &&
          decide (now - r.time_window ≤ l.parsed_time)).length ∧
      (∀ t, r.last_triggered = some t → r.cooldown ≤ now - t) ∧
      (processRule (st.all_logs ++ [log]) now r).1.last_triggered = some now) := by
  constructor
  · simp only [LogAnalyticsEngine.ingest_log, LogAnalyticsEngine.check_alerts]
    by_cases h : log.source ≠ "" <;> simp [h]
  · intro hsome
    unfold processRule at hsome
    cases hen : r.enabled with
    | false => simp [hen] at hsome
    | true =>
      simp only [hen, Bool.not_true, Bool.false_eq_true, if_false] at hsome
      set logs := st.all_logs ++ [log] with hlogs
      set scan := checkRuleScan r.conditions (now - r.time_window) logs.reverse 0 []
        with hscan
      cases htr : r.should_trigger scan.1 now with
      | false => simp [htr] at hsome
      | true =>
        have htr' := htr
        unfold AlertRule.should_trigger at htr
        simp only [hen, Bool.not_true, Bool.false_eq_true, if_false] at htr
        by_cases hth : scan.1 < r.threshold
        · simp [hth] at htr
        · refine ⟨rfl, ?_, ?_, ?_⟩
          · have h1 := checkRuleScan_le r.conditions (now - r.time_window)
              logs.reverse 0 []
            rw [← hscan] at h1
            have h2 : (logs.reverse.filter fun l =>
                l.matches_filter r.conditions &&
                  decide (now - r.time_window ≤ l.parsed_time)).length =
                (logs.filter fun l =>
                  l.matches_filter r.conditions &&
                    decide (now - r.time_window ≤ l.parsed_time)).length := by
              rw [List.filter_reverse, List.length_reverse]
            omega
          · intro t ht
            rw [ht] at htr
            simp only at htr
            by_cases ht0 : t ≠ 0
            · by_cases hcd : now - t < r.cooldown
              · simp [ht0, hcd] at htr
              · exact not_lt.mp hcd
            · rcases hlast with hnone | ⟨t', ht', ht'0⟩
              · rw [hnone] at ht; cases ht
              · rw [ht'] at ht
                cases ht
                exact absurd ht'0 ht0
          · unfold processRule
            simp only [hen, Bool.not_true, Bool.false_eq_true, if_false]
            rw [← hscan, htr']
            simp

def c6entry : LogEntry :=
  { timestamp := "2200-01-01T00:00:00Z", level := "ERROR", message := "boom"
    source := "api", thread_id := none, request_id := none, user_id := none
    tags := [], parsed_time := 100 }

def c6rule : AlertRule :=
  { name := "future", description := ""
    conditions := ⟨none, none, none, none, none⟩
    severity := AlertSeverity.high, threshold := 1, time_window := 50
    cooldown := 10, enabled := true, last_triggered := none }

def c6engine : LogAnalyticsEngine :=
  ⟨BST.leaf, [], [], [], [], [c6rule], []⟩

theorem C6_alert_emission_gating_witness :
    (c6engine.ingest_log c6entry 10).triggered_alerts =
      c6engine.triggered_alerts ++ c6engine.alert_rules.filterMap
        (fun r' => (processRule (c6engine.all_logs ++ [c6entry]) 10 r').2) ∧
    ((processRule (c6engine.all_logs ++ [c6entry]) 10 c6rule).2.isSome = true →
      c6rule.enabled = true ∧
      c6rule.threshold ≤ ((c6engine.all_logs ++ [c6entry]).filter fun l =>
        l.matches_filter c6rule.conditions &&
          decide ((10 : Time) - c6rule.time_window ≤ l.parsed_time)).length ∧
      (∀ t, c6rule.last_triggered = some t → c6rule.cooldown ≤ 10 - t) ∧
      (processRule (c6engine.all_logs ++ [c6entry]) 10 c6rule).1.last_triggered
        = some 10) :=
  C6_alert_emission_gating c6engine c6entry 10 c6rule (Or.inl rfl)

/-- C6, counterexample to the sliding window's upper bound: ingesting a single
entry whose parsed time (100) lies in the *future* of `now = 10` emits an
alert (threshold 1, window 50), although zero already-ingested matching
entries have their parsed time inside `[now − time_window, now] = [-40, 10]`.
-/
theorem C6_counterexample_future_entry_fires :
    (c6engine.ingest_log c6entry 10).triggered_alerts.length =
      c6engine.triggered_alerts.length + 1 ∧
    ((c6engine.all_logs ++ [c6entry]).filter fun l =>
      l.matches_filter c6rule.conditions &&
        (decide ((10 : Time) - c6rule.time_window ≤ l.parsed_time) &&
          decide (l.parsed_time ≤ (10 : Time)))).length = 0 := by
  constructor
  · have hpr : processRule [c6entry] 10 c6rule =
        ({ c6rule with last_triggered := some 10 },
          some ⟨"future", AlertSeverity.high, 10, 1, [c6entry]⟩) := by
      unfold processRule
      norm_num [c6rule, c6entry, checkRuleScan, AlertRule.should_trigger,
        LogEntry.matches_filter]
    simp only [c6entry] at hpr
    simp only [LogAnalyticsEngine.ingest_log, LogAnalyticsEngine.check_alerts]
    simp +decide [c6engine, c6entry, hpr]
  · norm_num [c6engine, c6entry, c6rule, LogEntry.matches_filter]

/-! ## Message queue core (`message_queue.py`) -/

/-! ### CPython `heapq` over a list, as used by `PriorityQueue`/`DelayQueue` -/

section Heapq

variable {α : Type}

/-- `heapq._siftdown(heap, startpos, pos)`, with the moved item (`newitem =
heap[pos]`) passed explicitly: it bubbles up toward `startpos` while parents
shift down.  All index accesses are in range in every call the source makes;
`getD` uses `newitem` as the (never reached) default. -/
def siftdownAux (lt : α → α → Bool) (heap : List α) (startpos pos : Nat)
    (newitem : α) : List α :=
  if h : startpos < pos then
    let parentpos := (pos - 1) / 2
    let parent := heap.getD parentpos newitem
    if lt newitem parent then
      siftdownAux lt (heap.set pos parent) startpos parentpos newitem
    else heap.set pos newitem
  else heap.set pos newitem
termination_by pos
decreasing_by
  have h1 : 0 < pos := Nat.lt_of_le_of_lt (Nat.zero_le _) h
  omega

/-- `heapq._siftup(heap, pos)` with `newitem = heap[pos]` explicit: the hole
travels down to a leaf pulling the smaller child up, then `_siftdown` bubbles
`newitem` back up from that leaf. -/
def siftupAux (lt : α → α → Bool) (heap : List α) (startpos pos : Nat)
    (newitem : α) : List α :=
  let endpos := heap.length
  let childpos := 2 * pos + 1
  if h : childpos < endpos then
    let rightpos := childpos + 1
    let childpos' :=
      if rightpos < endpos &&
          !lt (heap.getD childpos newitem) (heap.getD rightpos newitem) then
        rightpos
      else childpos
    siftupAux lt (heap.set pos (heap.getD childpos' newitem)) startpos childpos'
      newitem
  else siftdownAux lt (heap.set pos newitem) startpos pos newitem
termination_by heap.length - pos
decreasing_by
  simp only [List.length_set]
  split <;> omega

/-- `heapq.heappush`. -/
def heappush (lt : α → α → Bool) (heap : List α) (item : α) : List α :=
  siftdownAux lt (heap ++ [item]) 0 heap.length item

/-- `heapq.heappop`: `none` on an empty heap (the source guards the call with
`if not self._heap`, where Python would raise `IndexError`).  For two or more
elements: pop the last element, move it to position 0 (the popped root's
slot) and sift it up; `x :: (y :: ys).dropLast` with position 0 set to the
last element is `lastelt :: (y :: ys).dropLast`. -/
def heappop (lt : α → α → Bool) (heap : List α) : Option (α × List α) :=
  match heap with
  | [] => none
  | [x] => some (x, [])
  | x :: y :: ys =>
    let lastelt := (y :: ys).getLast (by simp)
    some (x, siftupAux lt (lastelt :: (y :: ys).dropLast) 0 0 lastelt)

theorem set_getD_self (l : List α) (n : Nat) (d : α) (hn : n < l.length) :
    l.set n (l.getD n d) = l := by
  induction l generalizing n with
  | nil => simp at hn
  | cons a as ih =>
    cases n with
    | zero => simp [List.getD]
    | succ m =>
      simp only [List.length_cons] at hn
      simp only [List.set_cons_succ, List.getD_cons_succ]
      rw [ih m (by omega)]

theorem cons_set_comm_perm (l : List α) (n : Nat) (hn : n < l.length)
    (a x : α) : List.Perm (x :: l.set n a) (a :: l.set n x) := by
  induction l generalizing n with
  | nil => simp at hn
  | cons b bs ih =>
    cases n with
    | zero => simpa using List.Perm.swap a x bs
    | succ m =>
      simp only [List.length_cons] at hn
      simp only [List.set_cons_succ]
      exact ((List.Perm.swap b x (bs.set m a)).trans
        (List.Perm.cons b (ih m (by omega)))).trans
        (List.Perm.swap a b (bs.set m x))

theorem set_set_swap_perm (l : List α) (i j : Nat) (hi : i < l.length)
    (hj : j < l.length) (hne : i ≠ j) (x : α) :
    List.Perm ((l.set i (l.getD j x)).set j x) (l.set i x) := by
  induction l generalizing i j with
  | nil => simp at hi
  | cons a as ih =>
    cases i with
    | zero =>
      cases j with
      | zero => exact absurd rfl hne
      | succ m =>
        simp only [List.length_cons] at hj
        simp only [List.set_cons_zero, List.getD_cons_succ, List.set_cons_succ]
        have h1 := cons_set_comm_perm as m (by omega) (as.getD m x) x
        rw [set_getD_self as m x (by omega)] at h1
        exact h1.symm
    | succ n =>
      cases j with
      | zero =>
        simp only [List.length_cons] at hi
        simp only [List.getD_cons_zero, List.set_cons_succ, List.set_cons_zero]
        exact cons_set_comm_perm as n (by omega) a x
      | succ m =>
        simp only [List.length_cons] at hi hj
        simp only [List.set_cons_succ, List.getD_cons_succ]
        exact List.Perm.cons a (ih n m (by omega) (by omega) (by omega))

theorem siftdownAux_perm (lt : α → α → Bool) :
    ∀ (pos : Nat) (heap : List α) (x : α), pos < heap.length →
      List.Perm (siftdownAux lt heap 0 pos x) (heap.set pos x) := by
  intro pos
  induction pos using Nat.strong_induction_on with
  | _ pos ih =>
    intro heap x hpos
    unfold siftdownAux
    by_cases h : 0 < pos
    · rw [dif_pos h]
      dsimp only
      by_cases hl : lt x (heap.getD ((pos - 1) / 2) x)
      · rw [if_pos hl]
        have hpplt : (pos - 1) / 2 < pos := by omega
        have h1 := ih ((pos - 1) / 2) hpplt
          (heap.set pos (heap.getD ((pos - 1) / 2) x)) x
          (by rw [List.length_set]; omega)
        refine h1.trans ?_
        exact set_set_swap_perm heap pos ((pos - 1) / 2) hpos (by omega)
          (by omega) x
      · rw [if_neg hl]
    · rw [dif_neg h]

theorem siftupAux_perm (lt : α → α → Bool) :
    ∀ (n pos : Nat) (heap : List α) (x : α), heap.length - pos = n →
      pos < heap.length →
      List.Perm (siftupAux lt heap 0 pos x) (heap.set pos x) := by
  intro n
  induction n using Nat.strong_induction_on with
  | _ n ih =>
    intro pos heap x hn hpos
    unfold siftupAux
    by_cases h : 2 * pos + 1 < heap.length
    · rw [dif_pos h]
      dsimp only
      by_cases hb : (2 * pos + 1 + 1 < heap.length &&
          !lt (heap.getD (2 * pos + 1) x) (heap.getD (2 * pos + 1 + 1) x)) = true
      · rw [if_pos hb]
        have hb' : 2 * pos + 1 + 1 < heap.length := by
          have := (Bool.and_eq_true _ _).mp hb
          simpa using this.1
        have h1 := ih (heap.length - (2 * pos + 1 + 1)) (by omega)
          (2 * pos + 1 + 1) (heap.set pos (heap.getD (2 * pos + 1 + 1) x)) x
          (by rw [List.length_set]) (by rw [List.length_set]; omega)
        refine h1.trans ?_
        exact set_set_swap_perm heap pos (2 * pos + 1 + 1) hpos (by omega)
          (by omega) x
      · rw [if_neg hb]
        have h1 := ih (heap.length - (2 * pos + 1)) (by omega)
          (2 * pos + 1) (heap.set pos (heap.getD (2 * pos + 1) x)) x
          (by rw [List.length_set]) (by rw [List.length_set]; omega)
        refine h1.trans ?_
        exact set_set_swap_perm heap pos (2 * pos + 1) hpos (by omega)
          (by omega) x
    · rw [dif_neg h]
      have h1 := siftdownAux_perm lt pos (heap.set pos x) x
        (by rw [List.length_set]; exact hpos)
      rw [List.set_set] at h1
      exact h1

theorem heappush_perm (lt : α → α → Bool) (heap : List α) (item : α) :
    List.Perm (heappush lt heap item) (item :: heap) := by
  unfold heappush
  have h1 := siftdownAux_perm lt heap.length (heap ++ [item]) item (by simp)
  have h2 : (heap ++ [item]).set heap.length item = heap ++ [item] := by
    induction heap with
    | nil => rfl
    | cons a as ihh => simp [ihh]
  rw [h2] at h1
  exact h1.trans (List.perm_append_singleton item heap)

theorem heappop_perm (lt : α → α → Bool) (heap : List α) (m : α)
    (h' : List α) (h : heappop lt heap = some (m, h')) :
    List.Perm heap (m :: h') := by
  match heap with
  | [] => simp [heappop] at h
  | [x] =>
    simp only [heappop, Option.some.injEq, Prod.mk.injEq] at h
    rw [← h.1, ← h.2]
  | x :: y :: ys =>
    simp only [heappop, Option.some.injEq, Prod.mk.injEq] at h
    obtain ⟨hm, hh⟩ := h
    subst hm
    have hlast : (y :: ys).dropLast ++ [(y :: ys).getLast (by simp)] = y :: ys :=
      List.dropLast_append_getLast (by simp)
    have h1 := siftupAux_perm lt
      (((y :: ys).getLast (by simp)) :: (y :: ys).dropLast).length 0
      (((y :: ys).getLast (by simp)) :: (y :: ys).dropLast)
      ((y :: ys).getLast (by simp)) rfl (by simp)
    rw [List.set_cons_zero] at h1
    rw [← hh]
    have h2 : List.Perm (y :: ys)
        ((y :: ys).getLast (by simp) :: (y :: ys).dropLast) := by
      conv_lhs => rw [← hlast]
      exact List.perm_append_singleton _ _
    exact List.Perm.cons _ (h2.trans h1.symm)

/-- `heap[c]` is not smaller than `heap[p]` (whenever both indices are in
range): the heap relation between a parent slot `p` and a child slot `c`. -/
def nodeLe (lt : α → α → Bool) (heap : List α) (p c : Nat) : Prop :=
  ∀ a b, heap[p]? = some a → heap[c]? = some b → lt b a = false

/-- The CPython heap invariant: every element is `le` its parent
`(i - 1) / 2`. -/
def HeapInv (lt : α → α → Bool) (heap : List α) : Prop :=
  ∀ i, 0 < i → nodeLe lt heap ((i - 1) / 2) i

theorem lt_self_false (lt : α → α → Bool)
    (asym : ∀ a b, lt a b = true → lt b a = false) (a : α) :
    lt a a = false := by
  cases h : lt a a with
  | false => rfl
  | true =>
    have h1 := asym a a h
    rw [h] at h1
    exact h1

theorem getElem?_eq_some_getD {l : List α} {n : Nat} (h : n < l.length)
    (d : α) : l[n]? = some (l.getD n d) := by
  rw [List.getD_eq_getElem?_getD]
  rw [List.getElem?_eq_getElem h]
  rfl

/-- Invariant carried by `_siftdown`: with `newitem` written into the hole at
`pos`, (a) every parent/child pair except the one into `pos` already satisfies
the heap relation, and (b) the children of `pos` are already `le` the *parent*
of `pos` (so bubbling `newitem` further up cannot break them). -/
def SiftDownOK (lt : α → α → Bool) (heap : List α) (pos : Nat) (x : α) :
    Prop :=
  (∀ i, 0 < i → i ≠ pos → nodeLe lt (heap.set pos x) ((i - 1) / 2) i) ∧
  (0 < pos → ∀ c, (c - 1) / 2 = pos →
    nodeLe lt (heap.set pos x) ((pos - 1) / 2) c)

theorem siftDownOK_step (lt : α → α → Bool)
    (asym : ∀ a b, lt a b = true → lt b a = false)
    (leTrans : ∀ a b c, lt b a = false → lt c b = false → lt c a = false)
    (heap : List α) (pos : Nat) (x : α) (hpos : pos < heap.length)
    (h0 : 0 < pos)
    (hl : lt x (heap.getD ((pos - 1) / 2) x) = true)
    (hok : SiftDownOK lt heap pos x) :
    SiftDownOK lt (heap.set pos (heap.getD ((pos - 1) / 2) x))
      ((pos - 1) / 2) x := by
  have hpplt : (pos - 1) / 2 < pos := by omega
  have hpplen : (pos - 1) / 2 < heap.length := by omega
  have hgpp : heap[(pos - 1) / 2]? = some (heap.getD ((pos - 1) / 2) x) :=
    getElem?_eq_some_getD hpplen x
  constructor
  · intro i hi hne a b ha hb
    by_cases hipos : i = pos
    · subst hipos
      rw [List.getElem?_set_self (by simp; omega)] at ha
      injection ha with ha
      subst ha
      rw [List.getElem?_set_ne (by omega),
        List.getElem?_set_self (by omega)] at hb
      injection hb with hb
      subst hb
      exact asym _ _ hl
    · by_cases hppos : (i - 1) / 2 = pos
      · rw [hppos, List.getElem?_set_ne (by omega),
          List.getElem?_set_self (by omega)] at ha
        injection ha with ha
        subst ha
        rw [List.getElem?_set_ne (by omega), List.getElem?_set_ne (by omega)]
          at hb
        have hn := hok.2 h0 i hppos
        exact hn _ b
          (by rw [List.getElem?_set_ne (by omega)]; exact hgpp)
          (by rw [List.getElem?_set_ne (by omega)]; exact hb)
      · by_cases hppp : (i - 1) / 2 = (pos - 1) / 2
        · rw [hppp, List.getElem?_set_self (by simp; omega)] at ha
          injection ha with ha
          subst ha
          rw [List.getElem?_set_ne (by omega),
            List.getElem?_set_ne (by omega)] at hb
          have hn := hok.1 i hi hipos
          rw [hppp] at hn
          have h1 := hn _ b
            (by rw [List.getElem?_set_ne (by omega)]; exact hgpp)
            (by rw [List.getElem?_set_ne (by omega)]; exact hb)
          exact leTrans x (heap.getD ((pos - 1) / 2) x) b (asym _ _ hl) h1
        · rw [List.getElem?_set_ne (by omega),
            List.getElem?_set_ne (by omega)] at ha
          rw [List.getElem?_set_ne (by omega),
            List.getElem?_set_ne (by omega)] at hb
          have hn := hok.1 i hi hipos
          exact hn a b
            (by rw [List.getElem?_set_ne (by omega)]; exact ha)
            (by rw [List.getElem?_set_ne (by omega)]; exact hb)
  · intro hpp0 c hc a b ha hb
    have hcpp : c = 2 * ((pos - 1) / 2) + 1 ∨ c = 2 * ((pos - 1) / 2) + 2 :=
      by omega
    have hp2 : ((pos - 1) / 2 - 1) / 2 < (pos - 1) / 2 := by omega
    rw [List.getElem?_set_ne (by omega), List.getElem?_set_ne (by omega)]
      at ha
    by_cases hcpos : c = pos
    · rw [hcpos, List.getElem?_set_ne (by omega),
        List.getElem?_set_self (by omega)] at hb
      injection hb with hb
      subst hb
      have hn := hok.1 ((pos - 1) / 2) hpp0 (by omega)
      exact hn a _
        (by rw [List.getElem?_set_ne (by omega)]; exact ha)
        (by rw [List.getElem?_set_ne (by omega)]; exact hgpp)
    · rw [List.getElem?_set_ne (by omega), List.getElem?_set_ne (by omega)]
        at hb
      have hn1 := hok.1 c (by omega) hcpos
      rw [hc] at hn1
      have h1 := hn1 _ b
        (by rw [List.getElem?_set_ne (by omega)]; exact hgpp)
        (by rw [List.getElem?_set_ne (by omega)]; exact hb)
      have hn2 := hok.1 ((pos - 1) / 2) hpp0 (by omega)
      have h2 := hn2 a _
        (by rw [List.getElem?_set_ne (by omega)]; exact ha)
        (by rw [List.getElem?_set_ne (by omega)]; exact hgpp)
      exact leTrans a (heap.getD ((pos - 1) / 2) x) b h2 h1

theorem siftdownAux_heapInv (lt : α → α → Bool)
    (asym : ∀ a b, lt a b = true → lt b a = false)
    (leTrans : ∀ a b c, lt b a = false → lt c b = false → lt c a = false) :
    ∀ (pos : Nat) (heap : List α) (x : α), pos < heap.length →
      SiftDownOK lt heap pos x → HeapInv lt (siftdownAux lt heap 0 pos x) := by
  intro pos
  induction pos using Nat.strong_induction_on with
  | _ pos ih =>
    intro heap x hpos hok
    unfold siftdownAux
    by_cases h : 0 < pos
    · rw [dif_pos h]
      dsimp only
      by_cases hl : lt x (heap.getD ((pos - 1) / 2) x)
      · rw [if_pos hl]
        exact ih ((pos - 1) / 2) (by omega) _ x
          (by rw [List.length_set]; omega)
          (siftDownOK_step lt asym leTrans heap pos x hpos h hl hok)
      · rw [if_neg hl]
        rw [Bool.not_eq_true] at hl
        intro i hi a b ha hb
        by_cases hipos : i = pos
        · subst hipos
          rw [List.getElem?_set_ne (by omega)] at ha
          rw [getElem?_eq_some_getD (by omega) x] at ha
          injection ha with ha
          subst ha
          rw [List.getElem?_set_self (by omega)] at hb
          injection hb with hb
          subst hb
          exact hl
        · exact hok.1 i hi hipos a b ha hb
    · rw [dif_neg h]
      intro i hi a b ha hb
      exact hok.1 i hi (by omega) a b ha hb

/-- Invariant carried by `_siftup`: (a) every parent/child pair not touching
the hole `pos` satisfies the heap relation, and (b) the children of `pos` are
`le` the parent of `pos` (the value that sank away from `pos`'s slot). -/
def SiftUpOK (lt : α → α → Bool) (heap : List α) (pos : Nat) : Prop :=
  (∀ i, 0 < i → i ≠ pos → (i - 1) / 2 ≠ pos → nodeLe lt heap ((i - 1) / 2) i) ∧
  (0 < pos → ∀ c, (c - 1) / 2 = pos → nodeLe lt heap ((pos - 1) / 2) c)

theorem siftUpOK_step (lt : α → α → Bool) (heap : List α) (pos cp : Nat)
    (x : α) (hpos : pos < heap.length) (hcp : cp < heap.length)
    (hchild : cp = 2 * pos + 1 ∨ cp = 2 * pos + 2)
    (hother : ∀ o, (o = 2 * pos + 1 ∨ o = 2 * pos + 2) → o ≠ cp →
      ∀ b, heap[o]? = some b → lt b (heap.getD cp x) = false)
    (hok : SiftUpOK lt heap pos) :
    SiftUpOK lt (heap.set pos (heap.getD cp x)) cp := by
  have hposcp : pos < cp := by omega
  have hcpp : (cp - 1) / 2 = pos := by omega
  have hgcp : heap[cp]? = some (heap.getD cp x) := getElem?_eq_some_getD hcp x
  constructor
  · intro i hi hicp hpicp a b ha hb
    by_cases hip : i = pos
    · rw [hip, List.getElem?_set_self (by omega)] at hb
      injection hb with hb
      subst hb
      have hpp0 : 0 < pos := by omega
      rw [List.getElem?_set_ne (by omega)] at ha
      rw [hip] at ha
      exact hok.2 hpp0 cp hcpp a _ ha hgcp
    · rw [List.getElem?_set_ne (by omega)] at hb
      by_cases hpp : (i - 1) / 2 = pos
      · rw [hpp, List.getElem?_set_self (by omega)] at ha
        injection ha with ha
        subst ha
        have hio : i = 2 * pos + 1 ∨ i = 2 * pos + 2 := by omega
        exact hother i hio hicp b hb
      · rw [List.getElem?_set_ne (by omega)] at ha
        exact hok.1 i hi hip hpp a b ha hb
  · intro hcp0 c hcc a b ha hb
    rw [hcpp, List.getElem?_set_self (by omega)] at ha
    injection ha with ha
    subst ha
    have hccp : cp < c := by omega
    rw [List.getElem?_set_ne (by omega)] at hb
    have hn := hok.1 c (by omega) (by omega) (by omega)
    rw [hcc] at hn
    exact hn _ b hgcp hb

theorem siftupAux_heapInv (lt : α → α → Bool)
    (asym : ∀ a b, lt a b = true → lt b a = false)
    (leTrans : ∀ a b c, lt b a = false → lt c b = false → lt c a = false) :
    ∀ (n pos : Nat) (heap : List α) (x : α), heap.length - pos = n →
      pos < heap.length → SiftUpOK lt heap pos →
      HeapInv lt (siftupAux lt heap 0 pos x) := by
  intro n
  induction n using Nat.strong_induction_on with
  | _ n ih =>
    intro pos heap x hn hpos hok
    unfold siftupAux
    by_cases h : 2 * pos + 1 < heap.length
    · rw [dif_pos h]
      dsimp only
      by_cases hb : (2 * pos + 1 + 1 < heap.length &&
          !lt (heap.getD (2 * pos + 1) x) (heap.getD (2 * pos + 1 + 1) x)) =
            true
      · rw [if_pos hb]
        simp only [Bool.and_eq_true, decide_eq_true_eq, Bool.not_eq_true']
          at hb
        apply ih (heap.length - (2 * pos + 1 + 1)) (by omega) (2 * pos + 1 + 1)
          _ x (by rw [List.length_set]) (by rw [List.length_set]; omega)
        apply siftUpOK_step lt heap pos (2 * pos + 1 + 1) x hpos (by omega)
          (by omega) ?_ hok
        intro o ho hocp b hbo
        have ho' : o = 2 * pos + 1 := by omega
        rw [ho', getElem?_eq_some_getD (by omega) x] at hbo
        injection hbo with hbo
        subst hbo
        exact hb.2
      · rw [if_neg hb]
        simp only [Bool.and_eq_true, decide_eq_true_eq, Bool.not_eq_true']
          at hb
        apply ih (heap.length - (2 * pos + 1)) (by omega) (2 * pos + 1)
          _ x (by rw [List.length_set]) (by rw [List.length_set]; omega)
        apply siftUpOK_step lt heap pos (2 * pos + 1) x hpos (by omega)
          (by omega) ?_ hok
        intro o ho hocp b hbo
        have ho' : o = 2 * pos + 1 + 1 := by omega
        have holen : o < heap.length := (List.getElem?_eq_some_iff.mp hbo).1
        have hlr : lt (heap.getD (2 * pos + 1) x)
            (heap.getD (2 * pos + 1 + 1) x) = true := by
          rcases not_and_or.mp hb with h1 | h1
          · exact (h1 (by omega)).elim
          · rw [Bool.not_eq_false] at h1
            exact h1
        rw [ho', getElem?_eq_some_getD (by omega) x] at hbo
        injection hbo with hbo
        subst hbo
        exact asym _ _ hlr
    · rw [dif_neg h]
      apply siftdownAux_heapInv lt asym leTrans pos (heap.set pos x) x
        (by rw [List.length_set]; omega)
      unfold SiftDownOK
      rw [List.set_set]
      constructor
      · intro i hi hip a b ha hb
        by_cases hpp : (i - 1) / 2 = pos
        · have hlen : i < (heap.set pos x).length :=
            (List.getElem?_eq_some_iff.mp hb).1
          rw [List.length_set] at hlen
          omega
        · rw [List.getElem?_set_ne (by omega)] at ha
          rw [List.getElem?_set_ne (by omega)] at hb
          exact hok.1 i hi hip hpp a b ha hb
      · intro hp0 c hc a b ha hb
        have hlen : c < (heap.set pos x).length :=
          (List.getElem?_eq_some_iff.mp hb).1
        rw [List.length_set] at hlen
        omega

theorem heappush_heapInv (lt : α → α → Bool)
    (asym : ∀ a b, lt a b = true → lt b a = false)
    (leTrans : ∀ a b c, lt b a = false → lt c b = false → lt c a = false)
    (heap : List α) (item : α) (hinv : HeapInv lt heap) :
    HeapInv lt (heappush lt heap item) := by
  unfold heappush
  apply siftdownAux_heapInv lt asym leTrans heap.length (heap ++ [item]) item
    (by simp)
  have hset : (heap ++ [item]).set heap.length item = heap ++ [item] := by
    induction heap with
    | nil => rfl
    | cons a as ihh => simp [ihh]
  unfold SiftDownOK
  rw [hset]
  constructor
  · intro i hi hne a b ha hb
    have hlen : i < (heap ++ [item]).length :=
      (List.getElem?_eq_some_iff.mp hb).1
    rw [List.length_append, List.length_singleton] at hlen
    have hilt : i < heap.length := by omega
    rw [List.getElem?_append_left (by omega)] at ha
    rw [List.getElem?_append_left (by omega)] at hb
    exact hinv i hi a b ha hb
  · intro h0 c hc a b ha hb
    have hlen : c < (heap ++ [item]).length :=
      (List.getElem?_eq_some_iff.mp hb).1
    rw [List.length_append, List.length_singleton] at hlen
    omega

theorem heappop_heapInv (lt : α → α → Bool)
    (asym : ∀ a b, lt a b = true → lt b a = false)
    (leTrans : ∀ a b c, lt b a = false → lt c b = false → lt c a = false)
    (heap : List α) (m : α) (h' : List α) (hinv : HeapInv lt heap)
    (h : heappop lt heap = some (m, h')) : HeapInv lt h' := by
  match heap with
  | [] => simp [heappop] at h
  | [x] =>
    simp only [heappop, Option.some.injEq, Prod.mk.injEq] at h
    rw [← h.2]
    intro i hi a b ha hb
    simp at hb
  | x :: y :: ys =>
    simp only [heappop, Option.some.injEq, Prod.mk.injEq] at h
    rw [← h.2]
    apply siftupAux_heapInv lt asym leTrans
      ((y :: ys).getLast (by simp) :: (y :: ys).dropLast).length 0
      ((y :: ys).getLast (by simp) :: (y :: ys).dropLast)
      ((y :: ys).getLast (by simp)) (by simp) (by simp)
    constructor
    · intro i hi hne hpne a b ha hb
      have hp1 : 0 < (i - 1) / 2 := by omega
      have hlb : i < ((y :: ys).getLast (by simp) ::
          (y :: ys).dropLast).length := (List.getElem?_eq_some_iff.mp hb).1
      rw [List.length_cons, List.length_dropLast, List.length_cons] at hlb
      have hgp : ∀ j a', 0 < j →
          ((y :: ys).getLast (by simp) :: (y :: ys).dropLast)[j]? = some a' →
          (x :: y :: ys)[j]? = some a' := by
        intro j a' hj hja
        have hj' : j = (j - 1) + 1 := by omega
        rw [hj', List.getElem?_cons_succ] at hja ⊢
        rw [List.getElem?_dropLast] at hja
        by_cases hjr : j - 1 < (y :: ys).length - 1
        · rw [if_pos hjr] at hja
          exact hja
        · rw [if_neg hjr] at hja
          exact absurd hja (by simp)
      exact hinv i hi a b (hgp _ a hp1 ha) (hgp _ b (by omega) hb)
    · intro h0
      exact absurd h0 (by omega)

theorem heapInv_root_le (lt : α → α → Bool)
    (asym : ∀ a b, lt a b = true → lt b a = false)
    (leTrans : ∀ a b c, lt b a = false → lt c b = false → lt c a = false)
    (heap : List α) (hinv : HeapInv lt heap) (r : α)
    (hr : heap[0]? = some r) :
    ∀ (i : Nat) (a : α), heap[i]? = some a → lt a r = false := by
  intro i
  induction i using Nat.strong_induction_on with
  | _ i ih =>
    intro a ha
    rcases Nat.eq_zero_or_pos i with h0 | hpos
    · subst h0
      rw [hr] at ha
      injection ha with ha
      subst ha
      exact lt_self_false lt asym r
    · have hil : i < heap.length := (List.getElem?_eq_some_iff.mp ha).1
      have hpl : (i - 1) / 2 < heap.length := by omega
      have hpar := List.getElem?_eq_getElem hpl
      have h1 := hinv i hpos _ _ hpar ha
      have h2 := ih ((i - 1) / 2) (by omega) _ hpar
      exact leTrans r _ a h2 h1

theorem heappop_min (lt : α → α → Bool)
    (asym : ∀ a b, lt a b = true → lt b a = false)
    (leTrans : ∀ a b c, lt b a = false → lt c b = false → lt c a = false)
    (heap : List α) (m : α) (h' : List α) (hinv : HeapInv lt heap)
    (h : heappop lt heap = some (m, h')) :
    ∀ b ∈ h', lt b m = false := by
  intro b hb
  have hperm := heappop_perm lt heap m h' h
  have hbh : b ∈ heap := hperm.mem_iff.mpr (List.mem_cons_of_mem m hb)
  obtain ⟨i, hi⟩ := List.mem_iff_getElem?.mp hbh
  have hm : heap[0]? = some m := by
    match heap with
    | [] => simp [heappop] at h
    | [x] =>
      simp only [heappop, Option.some.injEq, Prod.mk.injEq] at h
      rw [← h.1]
      rfl
    | x :: y :: ys =>
      simp only [heappop, Option.some.injEq, Prod.mk.injEq] at h
      rw [← h.1]
      rfl
  exact heapInv_root_le lt asym leTrans heap hinv m hm i b hi

end Heapq

/-! ## Message queue (`message_queue.py`)

`uuid.uuid4()` is modelled by a ghost counter `nextId` (the published ids
`0, 1, 2, …`), i.e. the default `message_id=None` path of `publish`.
`time.time()` is the explicit `now : Time` argument of each operation.
Payloads and header values are `Nat` (they are opaque to the queue logic).
Alongside the Python state the model keeps ghost trails: `published` (every
id `publish` returned), `completedList` (messages acknowledged and then
discarded), `failedList` (messages marked `FAILED` with no dead-letter queue,
which the code drops), and `lostList` (messages whose re-queueing `put`
returned `False`, a result `nack` ignores, so they vanish). -/

inductive MessagePriority where
  | low
  | normal
  | high
  | urgent
deriving DecidableEq

/-- The `Enum` values: `LOW = 1, NORMAL = 2, HIGH = 3, URGENT = 4`. -/
def MessagePriority.value : MessagePriority → Nat
  | .low => 1
  | .normal => 2
  | .high => 3
  | .urgent => 4

inductive MessageStatus where
  | pending
  | processing
  | completed
  | failed
  | dead_letter
deriving DecidableEq

structure Message where
  id : Nat
  payload : Nat
  priority : MessagePriority
  created_at : Time
  processed_at : Option Time
  retry_count : Nat
  max_retries : Nat
  delay_until : Option Time
  headers : List (String × Nat)
  status : MessageStatus
  consumer_id : Option String
deriving DecidableEq

/-- `Message.__lt__`: `(self.priority.value, -self.created_at) >
(other.priority.value, -other.created_at)` -- Python tuple comparison, so
higher priority first, then (negated) older creation time first. -/
def Message.lt (a b : Message) : Bool :=
  decide (b.priority.value < a.priority.value) ||
    (decide (a.priority.value = b.priority.value) &&
      decide (a.created_at < b.created_at))

/-- Comparison of the `(delay_until, message)` tuples stored by `DelayQueue`
(`heapq` compares them with `<`). -/
def delayLt (a b : Time × Message) : Bool :=
  decide (a.1 < b.1) || (decide (a.1 = b.1) && Message.lt a.2 b.2)

inductive QueueType where
  | fifo
  | lifo
  | priority
  | delay
deriving DecidableEq

/-- The backing store of the four container classes, in Python list order
(index 0 leftmost).  `FIFOQueue` uses a deque (append right, pop left),
`LIFOQueue` a list (append right, pop right), `PriorityQueue` a `heapq` heap
of messages, `DelayQueue` a `heapq` heap of `(delay_until, message)`. -/
inductive QueueImpl where
  | fifo (items : List Message)
  | lifo (items : List Message)
  | prio (heap : List Message)
  | delay (heap : List (Time × Message))
deriving DecidableEq

def QueueImpl.size : QueueImpl → Nat
  | .fifo l => l.length
  | .lifo l => l.length
  | .prio h => h.length
  | .delay h => h.length

/-- The messages held by a container, as a list. -/
def QueueImpl.msgs : QueueImpl → List Message
  | .fifo l => l
  | .lifo l => l
  | .prio h => h
  | .delay h => h.map Prod.snd

structure QueueContainer where
  impl : QueueImpl
  maxsize : Nat
deriving DecidableEq

/-- `put` of the four container classes: every one first rejects when
`maxsize > 0 and len >= maxsize` (returning `False`), otherwise inserts and
returns `True`.  `DelayQueue.put` keys the heap entry by
`item.delay_until or time.time()` (Python `or`: `None` *and* `0.0` fall back
to the current time). -/
def QueueContainer.put (q : QueueContainer) (m : Message) (now : Time) :
    Bool × QueueContainer :=
  if decide (q.maxsize > 0) && decide (q.impl.size ≥ q.maxsize) then
    (false, q)
  else
    match q.impl with
    | .fifo l => (true, { q with impl := .fifo (l ++ [m]) })
    | .lifo l => (true, { q with impl := .lifo (l ++ [m]) })
    | .prio h => (true, { q with impl := .prio (heappush Message.lt h m) })
    | .delay h =>
      let d : Time :=
        match m.delay_until with
        | none => now
        | some d => if d = 0 then now else d
      (true, { q with impl := .delay (heappush delayLt h (d, m)) })

/-- `get` of the four container classes; `None` when empty.  `DelayQueue.get`
peeks the heap root and only pops it when its `delay_until <= now`. -/
def QueueContainer.get (q : QueueContainer) (now : Time) :
    Option Message × QueueContainer :=
  match q.impl with
  | .fifo l =>
    match l with
    | [] => (none, q)
    | m :: rest => (some m, { q with impl := .fifo rest })
  | .lifo l =>
    match l.getLast? with
    | none => (none, q)
    | some m => (some m, { q with impl := .lifo l.dropLast })
  | .prio h =>
    match heappop Message.lt h with
    | none => (none, q)
    | some (m, h') => (some m, { q with impl := .prio h' })
  | .delay h =>
    match h with
    | [] => (none, q)
    | (d, _) :: _ =>
      if decide (d ≤ now) then
        match heappop delayLt h with
        | none => (none, q)
        | some (p, h') => (some p.2, { q with impl := .delay h' })
      else (none, q)

structure QueueMetrics where
  messages_published : Nat
  messages_consumed : Nat
  messages_failed : Nat
  messages_retried : Nat
  queue_size : Nat
  processing_count : Nat
  dead_letter_count : Nat
  avg_processing_time : Time
  last_activity : Time
deriving DecidableEq

def QueueMetrics.initial (now : Time) : QueueMetrics :=
  { messages_published := 0, messages_consumed := 0, messages_failed := 0
    messages_retried := 0, queue_size := 0, processing_count := 0
    dead_letter_count := 0, avg_processing_time := 0, last_activity := now }

structure MessageQueue where
  name : String
  queue_type : QueueType
  maxsize : Nat
  enable_dead_letter : Bool
  container : QueueContainer
  dead_letter_queue : Option QueueContainer
  processing_messages : List (Nat × Message)
  metrics : QueueMetrics
  nextId : Nat
  published : List Nat
  completedList : List Message
  failedList : List Message
  lostList : List Message
deriving DecidableEq

/-- `MessageQueue._create_queue`: the fresh (empty) container store for each
queue type. -/
def QueueType.emptyImpl : QueueType → QueueImpl
  | .fifo => .fifo []
  | .lifo => .lifo []
  | .priority => .prio []
  | .delay => .delay []

/-- `MessageQueue.__init__` (persistence disabled; `_dead_letter_queue` is a
`FIFOQueue(dead_letter_maxsize)` iff `enable_dead_letter`). -/
def MessageQueue.mk0 (name : String) (qt : QueueType) (maxsize : Nat)
    (enable_dead_letter : Bool) (dead_letter_maxsize : Nat) (now : Time) :
    MessageQueue :=
  { name, queue_type := qt, maxsize, enable_dead_letter
    container := { impl := QueueType.emptyImpl qt, maxsize }
    dead_letter_queue :=
      if enable_dead_letter then
        some { impl := .fifo [], maxsize := dead_letter_maxsize }
      else none
    processing_messages := [], metrics := QueueMetrics.initial now
    nextId := 0, published := [], completedList := [], failedList := []
    lostList := [] }

/-- The `Message(...)` built by `publish`: note `max_retries` is always the
dataclass default `3`, and `delay_until = time.time() + delay if delay else
None` (so `delay = 0` also yields `None`). -/
def mkMessage (nextId : Nat) (payload : Nat) (priority : MessagePriority)
    (delay : Option Time) (headers : List (String × Nat)) (now : Time) :
    Message :=
  { id := nextId, payload, priority, created_at := now, processed_at := none
    retry_count := 0, max_retries := 3
    delay_until :=
      match delay with
      | none => none
      | some d => if d = 0 then none else some (now + d)
    headers, status := .pending, consumer_id := none }

/-- `MessageQueue.publish`: `none` models the `RuntimeError("Queue is full")`
raised when the container's `put` returns `False`. -/
def MessageQueue.publish (q : MessageQueue) (payload : Nat)
    (priority : MessagePriority) (delay : Option Time)
    (headers : List (String × Nat)) (now : Time) :
    Option (Nat × MessageQueue) :=
  let m := mkMessage q.nextId payload priority delay headers now
  let r := q.container.put m now
  if r.1 then
    some (m.id,
      { q with
        container := r.2
        nextId := q.nextId + 1
        published := q.published ++ [m.id]
        metrics :=
          { q.metrics with
            messages_published := q.metrics.messages_published + 1
            last_activity := now } })
  else none

/-- The `for _ in range(batch_size)` loop of `consume`: pop, mark
`PROCESSING`/`consumer_id`/`processed_at`, store under
`_processing_messages[message.id]`, and stop at the first empty `get`. -/
def MessageQueue.consumeLoop (cid : String) (now : Time) :
    Nat → MessageQueue → List Message × MessageQueue
  | 0, q => ([], q)
  | n + 1, q =>
    let r := q.container.get now
    match r.1 with
    | none => ([], q)
    | some m =>
      let m' := { m with
        status := .processing
        consumer_id := some cid
        processed_at := some now }
      let q' := { q with
        container := r.2
        processing_messages := assocSet q.processing_messages m'.id m' }
      let rest := MessageQueue.consumeLoop cid now n q'
      (m' :: rest.1, rest.2)

/-- `MessageQueue.consume`. -/
def MessageQueue.consume (q : MessageQueue) (cid : String) (batch_size : Nat)
    (now : Time) : List Message × MessageQueue :=
  let r := MessageQueue.consumeLoop cid now batch_size q
  (r.1,
    { r.2 with metrics :=
      { r.2.metrics with
        messages_consumed := r.2.metrics.messages_consumed + r.1.length
        last_activity := now } })

/-- `MessageQueue.acknowledge`: pop from `_processing_messages`, mark
`COMPLETED`; the message object is then dropped (ghost `completedList`). -/
def MessageQueue.acknowledge (q : MessageQueue) (mid : Nat) (now : Time) :
    Bool × MessageQueue :=
  match assocFind q.processing_messages mid with
  | none => (false, q)
  | some m =>
    (true,
      { q with
        processing_messages := assocErase q.processing_messages mid
        completedList := q.completedList ++ [{ m with status := .completed }]
        metrics := { q.metrics with last_activity := now } })

/-- `MessageQueue.nack`: pop from `_processing_messages`, bump `retry_count`;
requeue while `retry_count <= max_retries` (the `put` result is ignored: a
rejected message goes to the ghost `lostList`), otherwise dead-letter (again
ignoring `put`'s result) when `_dead_letter_queue` exists, else mark `FAILED`
and drop (ghost `failedList`). -/
def MessageQueue.nack (q : MessageQueue) (mid : Nat) (requeue : Bool)
    (now : Time) : Bool × MessageQueue :=
  match assocFind q.processing_messages mid with
  | none => (false, q)
  | some m0 =>
    let pm := assocErase q.processing_messages mid
    let m1 := { m0 with retry_count := m0.retry_count + 1 }
    if requeue && decide (m1.retry_count ≤ m1.max_retries) then
      let m2 := { m1 with status := .pending }
      let r := q.container.put m2 now
      (true,
        { q with
          processing_messages := pm
          container := r.2
          lostList := if r.1 then q.lostList else q.lostList ++ [m2]
          metrics :=
            { q.metrics with
              messages_retried := q.metrics.messages_retried + 1
              last_activity := now } })
    else
      match q.dead_letter_queue with
      | some dlq =>
        let m2 := { m1 with status := .dead_letter }
        let r := dlq.put m2 now
        (true,
          { q with
            processing_messages := pm
            dead_letter_queue := some r.2
            lostList := if r.1 then q.lostList else q.lostList ++ [m2]
            metrics :=
              { q.metrics with
                messages_failed := q.metrics.messages_failed + 1
                last_activity := now } })
      | none =>
        let m2 := { m1 with status := .failed }
        (true,
          { q with
            processing_messages := pm
            failedList := q.failedList ++ [m2]
            metrics :=
              { q.metrics with
                messages_failed := q.metrics.messages_failed + 1
                last_activity := now } })

/-- One client call to the queue's public API, with its wall-clock time. -/
inductive QueueOp where
  | publish (payload : Nat) (priority : MessagePriority) (delay : Option Time)
      (headers : List (String × Nat)) (now : Time)
  | consume (cid : String) (batch_size : Nat) (now : Time)
  | acknowledge (mid : Nat) (now : Time)
  | nack (mid : Nat) (requeue : Bool) (now : Time)

def applyQueueOp (q : MessageQueue) : QueueOp → MessageQueue
  | .publish payload priority delay headers now =>
    match q.publish payload priority delay headers now with
    | none => q
    | some r => r.2
  | .consume cid batch_size now => (q.consume cid batch_size now).2
  | .acknowledge mid now => (q.acknowledge mid now).2
  | .nack mid requeue now => (q.nack mid requeue now).2

def runQueueOps (q : MessageQueue) (ops : List QueueOp) : MessageQueue :=
  ops.foldl applyQueueOp q

def MessageQueue.pendingIds (q : MessageQueue) : List Nat :=
  q.container.impl.msgs.map Message.id

def MessageQueue.processingIds (q : MessageQueue) : List Nat :=
  q.processing_messages.map Prod.fst

def MessageQueue.dlqIds (q : MessageQueue) : List Nat :=
  match q.dead_letter_queue with
  | none => []
  | some d => d.impl.msgs.map Message.id

/-- Ids that reached a terminal disposition the code can still account for:
acknowledged (`COMPLETED`) or marked `FAILED` with no dead-letter queue. -/
def MessageQueue.terminalIds (q : MessageQueue) : List Nat :=
  q.completedList.map Message.id ++ q.failedList.map Message.id

/-- Every place a published id can legally be, with multiplicity. -/
def MessageQueue.allIds (q : MessageQueue) : List Nat :=
  q.pendingIds ++ q.processingIds ++ q.dlqIds ++ q.terminalIds

theorem messageLt_asym (a b : Message) (h : Message.lt a b = true) :
    Message.lt b a = false := by
  simp only [Message.lt, Bool.or_eq_true, Bool.and_eq_true,
    decide_eq_true_eq] at h
  simp only [Message.lt, Bool.or_eq_false_iff, Bool.and_eq_false_iff,
    decide_eq_false_iff_not]
  rcases h with h | ⟨h1, h2⟩
  · exact ⟨by omega, Or.inl (by omega)⟩
  · exact ⟨by omega, Or.inr (not_lt.mpr (le_of_lt h2))⟩

theorem messageLt_leTrans (a b c : Message) (h1 : Message.lt b a = false)
    (h2 : Message.lt c b = false) : Message.lt c a = false := by
  simp only [Message.lt, Bool.or_eq_false_iff, Bool.and_eq_false_iff,
    decide_eq_false_iff_not] at h1 h2 ⊢
  obtain ⟨h1a, h1b⟩ := h1
  obtain ⟨h2a, h2b⟩ := h2
  constructor
  · omega
  · by_cases hpe : c.priority.value = a.priority.value
    · right
      rcases h1b with h | h
      · exact absurd (by omega) h
      · rcases h2b with h' | h'
        · exact absurd (by omega) h'
        · exact not_lt.mpr (le_trans (not_lt.mp h) (not_lt.mp h'))
    · exact Or.inl hpe

theorem messageLt_false_iff (a b : Message) :
    Message.lt b a = false ↔
      b.priority.value ≤ a.priority.value ∧
        (a.priority.value = b.priority.value →
          a.created_at ≤ b.created_at) := by
  simp only [Message.lt, Bool.or_eq_false_iff, Bool.and_eq_false_iff,
    decide_eq_false_iff_not]
  constructor
  · rintro ⟨h1, h2⟩
    refine ⟨by omega, fun he => ?_⟩
    rcases h2 with h | h
    · exact absurd he.symm h
    · exact not_lt.mp h
  · rintro ⟨h1, h2⟩
    refine ⟨by omega, ?_⟩
    by_cases he : b.priority.value = a.priority.value
    · exact Or.inr (not_lt.mpr (h2 he.symm))
    · exact Or.inl he

/-- The arguments of one `publish` call. -/
structure PubReq where
  payload : Nat
  priority : MessagePriority
  delay : Option Time
  headers : List (String × Nat)
  now : Time

def MessageQueue.publishMany : MessageQueue → List PubReq → MessageQueue
  | q, [] => q
  | q, r :: rs =>
    MessageQueue.publishMany
      (applyQueueOp q (.publish r.payload r.priority r.delay r.headers r.now))
      rs

theorem put_prio (cm : Nat) (now : Time) (h : List Message) (m : Message) :
    QueueContainer.put ⟨.prio h, cm⟩ m now =
      if decide (cm > 0) && decide (h.length ≥ cm) then
        (false, ⟨.prio h, cm⟩)
      else (true, ⟨.prio (heappush Message.lt h m), cm⟩) := by
  unfold QueueContainer.put
  dsimp only [QueueImpl.size]

theorem get_prio_none (cm : Nat) (now : Time) (h : List Message)
    (hp : heappop Message.lt h = none) :
    QueueContainer.get ⟨.prio h, cm⟩ now = (none, ⟨.prio h, cm⟩) := by
  unfold QueueContainer.get
  dsimp only
  rw [hp]

theorem get_prio_some (cm : Nat) (now : Time) (h : List Message) (m : Message)
    (h' : List Message) (hp : heappop Message.lt h = some (m, h')) :
    QueueContainer.get ⟨.prio h, cm⟩ now = (some m, ⟨.prio h', cm⟩) := by
  unfold QueueContainer.get
  dsimp only
  rw [hp]

theorem publishMany_prio :
    ∀ (reqs : List PubReq) (q : MessageQueue) (h : List Message) (cm : Nat),
      q.container = ⟨.prio h, cm⟩ → HeapInv Message.lt h →
      ∃ h', (q.publishMany reqs).container = ⟨.prio h', cm⟩ ∧
        HeapInv Message.lt h' := by
  intro reqs
  induction reqs with
  | nil => intro q h cm hq hinv; exact ⟨h, hq, hinv⟩
  | cons r rs ih =>
    intro q h cm hq hinv
    show ∃ h', ((applyQueueOp q _).publishMany rs).container = _ ∧ _
    by_cases hfull : (decide (cm > 0) && decide (h.length ≥ cm)) = true
    · have happ : applyQueueOp q
          (.publish r.payload r.priority r.delay r.headers r.now) = q := by
        simp [applyQueueOp, MessageQueue.publish, hq, put_prio, hfull]
      rw [happ]
      exact ih q h cm hq hinv
    · have happ : (applyQueueOp q
          (.publish r.payload r.priority r.delay r.headers r.now)).container =
          ⟨.prio (heappush Message.lt h
            (mkMessage q.nextId r.payload r.priority r.delay r.headers
              r.now)), cm⟩ := by
        simp [applyQueueOp, MessageQueue.publish, hq, put_prio, hfull]
      exact ih _ _ cm happ
        (heappush_heapInv Message.lt messageLt_asym messageLt_leTrans h _ hinv)

/-- The consume order the spec asks of the priority queue: non-increasing
priority value, and non-decreasing creation time among equal priorities. -/
def prioOrder (a b : Message) : Prop :=
  b.priority.value ≤ a.priority.value ∧
    (a.priority.value = b.priority.value → a.created_at ≤ b.created_at)

theorem consumeLoop_prio_fields :
    ∀ (n : Nat) (q : MessageQueue) (cid : String) (now : Time)
      (h : List Message) (cm : Nat), q.container = ⟨.prio h, cm⟩ →
      ∀ x ∈ (MessageQueue.consumeLoop cid now n q).1, ∃ b, b ∈ h ∧
        x.priority = b.priority ∧ x.created_at = b.created_at := by
  intro n
  induction n with
  | zero =>
    intro q cid now h cm hqc x hx
    simp [MessageQueue.consumeLoop] at hx
  | succ n ih =>
    intro q cid now h cm hqc x hx
    unfold MessageQueue.consumeLoop at hx
    rw [hqc] at hx
    cases hp : heappop Message.lt h with
    | none =>
      rw [get_prio_none cm now h hp] at hx
      simp at hx
    | some p =>
      obtain ⟨m, h'⟩ := p
      rw [get_prio_some cm now h m h' hp] at hx
      have hperm := heappop_perm Message.lt h m h' hp
      dsimp only at hx
      rcases List.mem_cons.mp hx with hxm | hxr
      · subst hxm
        exact ⟨m, hperm.mem_iff.mpr (List.mem_cons_self m h'), rfl, rfl⟩
      · obtain ⟨b, hbh, hb1, hb2⟩ := ih _ cid now h' cm rfl x hxr
        exact ⟨b, hperm.mem_iff.mpr (List.mem_cons_of_mem m hbh), hb1, hb2⟩

theorem consumeLoop_prio_sorted :
    ∀ (n : Nat) (q : MessageQueue) (cid : String) (now : Time)
      (h : List Message) (cm : Nat), q.container = ⟨.prio h, cm⟩ →
      HeapInv Message.lt h →
      List.Pairwise prioOrder (MessageQueue.consumeLoop cid now n q).1 := by
  intro n
  induction n with
  | zero =>
    intro q cid now h cm hqc hinv
    simp [MessageQueue.consumeLoop]
  | succ n ih =>
    intro q cid now h cm hqc hinv
    unfold MessageQueue.consumeLoop
    rw [hqc]
    cases hp : heappop Message.lt h with
    | none =>
      rw [get_prio_none cm now h hp]
      simp
    | some p =>
      obtain ⟨m, h'⟩ := p
      rw [get_prio_some cm now h m h' hp]
      dsimp only
      constructor
      · intro x hx
        obtain ⟨b, hbh, hb1, hb2⟩ :=
          consumeLoop_prio_fields n _ cid now h' cm rfl x hx
        have hmin := heappop_min Message.lt messageLt_asym messageLt_leTrans
          h m h' hinv hp b hbh
        rw [messageLt_false_iff] at hmin
        simp only [prioOrder]
        rw [hb1, hb2]
        exact hmin
      · exact ih _ cid now h' cm rfl
          (heappop_heapInv Message.lt messageLt_asym messageLt_leTrans
            h m h' hinv hp)

/-- C4: for a priority-variant queue, any publishes, then one consume of any
batch size: the returned batch is sorted by non-increasing priority value
(`URGENT = 4 > HIGH = 3 > NORMAL = 2 > LOW = 1`), and by non-decreasing
`created_at` among messages of equal priority. -/
theorem C4_priority_consume_sorted (name : String) (maxsize : Nat)
    (edl : Bool) (dlms : Nat) (t0 : Time) (reqs : List PubReq) (cid : String)
    (n : Nat) (now : Time) :
    List.Pairwise prioOrder
      (((MessageQueue.mk0 name .priority maxsize edl dlms t0).publishMany
          reqs).consume cid n now).1 := by
  obtain ⟨h', hc, hinv⟩ :=
    publishMany_prio reqs (MessageQueue.mk0 name .priority maxsize edl dlms t0)
      [] maxsize rfl (by intro i hi a b ha hb; simp at ha)
  have hs := consumeLoop_prio_sorted n _ cid now h' maxsize hc hinv
  simpa [MessageQueue.consume] using hs

theorem heappush_nil {α : Type} (lt : α → α → Bool) (x : α) :
    heappush lt [] x = [x] := by
  unfold heappush siftdownAux
  simp

theorem put_empty_fifo (cm : Nat) (m : Message) (now : Time) :
    QueueContainer.put ⟨.fifo [], cm⟩ m now = (true, ⟨.fifo [m], cm⟩) := by
  have hg : (decide (cm > 0) &&
      decide (QueueImpl.size (QueueImpl.fifo []) ≥ cm)) = false := by
    simp only [QueueImpl.size, List.length_nil, Bool.and_eq_false_iff,
      decide_eq_false_iff_not]
    omega
  unfold QueueContainer.put
  dsimp only
  rw [hg]
  simp

theorem put_empty_lifo (cm : Nat) (m : Message) (now : Time) :
    QueueContainer.put ⟨.lifo [], cm⟩ m now = (true, ⟨.lifo [m], cm⟩) := by
  have hg : (decide (cm > 0) &&
      decide (QueueImpl.size (QueueImpl.lifo []) ≥ cm)) = false := by
    simp only [QueueImpl.size, List.length_nil, Bool.and_eq_false_iff,
      decide_eq_false_iff_not]
    omega
  unfold QueueContainer.put
  dsimp only
  rw [hg]
  simp

theorem put_empty_prio (cm : Nat) (m : Message) (now : Time) :
    QueueContainer.put ⟨.prio [], cm⟩ m now = (true, ⟨.prio [m], cm⟩) := by
  have hg : (decide (cm > 0) &&
      decide (QueueImpl.size (QueueImpl.prio []) ≥ cm)) = false := by
    simp only [QueueImpl.size, List.length_nil, Bool.and_eq_false_iff,
      decide_eq_false_iff_not]
    omega
  unfold QueueContainer.put
  dsimp only
  rw [hg]
  simp [heappush_nil]

theorem put_empty_delay (cm : Nat) (m : Message) (now : Time)
    (hdu : m.delay_until = none) :
    QueueContainer.put ⟨.delay [], cm⟩ m now =
      (true, ⟨.delay [(now, m)], cm⟩) := by
  have hg : (decide (cm > 0) &&
      decide (QueueImpl.size (QueueImpl.delay []) ≥ cm)) = false := by
    simp only [QueueImpl.size, List.length_nil, Bool.and_eq_false_iff,
      decide_eq_false_iff_not]
    omega
  unfold QueueContainer.put
  dsimp only
  rw [hg]
  simp [hdu, heappush_nil]

theorem get_single_fifo (cm : Nat) (m : Message) (now : Time) :
    QueueContainer.get ⟨.fifo [m], cm⟩ now = (some m, ⟨.fifo [], cm⟩) := by
  simp [QueueContainer.get]

theorem get_single_lifo (cm : Nat) (m : Message) (now : Time) :
    QueueContainer.get ⟨.lifo [m], cm⟩ now = (some m, ⟨.lifo [], cm⟩) := by
  simp [QueueContainer.get]

theorem get_single_prio (cm : Nat) (m : Message) (now : Time) :
    QueueContainer.get ⟨.prio [m], cm⟩ now = (some m, ⟨.prio [], cm⟩) := by
  simp [QueueContainer.get, heappop]

theorem get_single_delay (cm : Nat) (m : Message) (d : Time) (now : Time)
    (hd : d ≤ now) :
    QueueContainer.get ⟨.delay [(d, m)], cm⟩ now =
      (some m, ⟨.delay [], cm⟩) := by
  simp [QueueContainer.get, heappop, hd]

/-- The message as `consume` hands it out (and stores it in
`_processing_messages`). -/
def consumedMsg (m : Message) (cid : String) (tc : Time) : Message :=
  { m with
    status := .processing
    consumer_id := some cid
    processed_at := some tc }

/-- The message as a requeueing `nack` re-inserts it. -/
def nextMsg (m : Message) (cid : String) (tc : Time) : Message :=
  { m with
    retry_count := m.retry_count + 1
    status := .pending
    consumer_id := some cid
    processed_at := some tc }

/-- One consume-then-nack(requeue) round trip of a single message. -/
def c3cycle (cid : String) (mid : Nat) (tc tn : Time) (q : MessageQueue) :
    MessageQueue :=
  (((q.consume cid 1 tc).2).nack mid true tn).2

def c3run (cid : String) (mid : Nat) (times : Nat → Time) (q : MessageQueue) :
    Nat → MessageQueue
  | 0 => q
  | k + 1 =>
    c3cycle cid mid (times (2 * k)) (times (2 * k + 1))
      (c3run cid mid times q k)

/-- The queue holds exactly the message `m` (under delay key `d` for the
delay variant) and nothing is in flight. -/
def c3inv (q : MessageQueue) (m : Message) (d : Time) : Prop :=
  (q.container.impl = .fifo [m] ∨ q.container.impl = .lifo [m] ∨
    q.container.impl = .prio [m] ∨ q.container.impl = .delay [(d, m)]) ∧
  q.processing_messages = []

theorem c3cycle_requeue (q : MessageQueue) (m : Message) (d : Time)
    (cid : String) (tc tn : Time) (hinv : c3inv q m d) (hd : d ≤ tc)
    (hdu : m.delay_until = none)
    (hretry : m.retry_count + 1 ≤ m.max_retries) :
    c3inv (c3cycle cid m.id tc tn q) (nextMsg m cid tc) tn ∧
    (c3cycle cid m.id tc tn q).dead_letter_queue = q.dead_letter_queue ∧
    (c3cycle cid m.id tc tn q).failedList = q.failedList := by
  obtain ⟨hc, hpm⟩ := hinv
  rcases q with ⟨name, qt, ms, edl, cont, dlq, pm, met, nid, pub, comp, fail,
    lost⟩
  rcases cont with ⟨ci, cm⟩
  dsimp only at hc hpm
  subst hpm
  have hdu' : (nextMsg m cid tc).delay_until = none := hdu
  rcases hc with h | h | h | h <;> subst h <;>
    simp [c3cycle, MessageQueue.consume, MessageQueue.consumeLoop,
      MessageQueue.nack, c3inv, get_single_fifo, get_single_lifo,
      get_single_prio, get_single_delay cm m d tc hd, put_empty_fifo,
      put_empty_lifo, put_empty_prio, put_empty_delay, hdu, assocSet,
      assocFind, assocErase, hretry, consumedMsg, nextMsg]

/-- The message as the final `nack` dead-letters it. -/
def dlqMsg (m : Message) (cid : String) (tc : Time) : Message :=
  { m with
    retry_count := m.retry_count + 1
    status := .dead_letter
    consumer_id := some cid
    processed_at := some tc }

/-- The message as the final `nack` marks it `FAILED` (no dead-letter
queue). -/
def failMsg (m : Message) (cid : String) (tc : Time) : Message :=
  { m with
    retry_count := m.retry_count + 1
    status := .failed
    consumer_id := some cid
    processed_at := some tc }

theorem c3cycle_deadletter (q : MessageQueue) (m : Message) (d : Time)
    (cid : String) (tc tn : Time) (dlms : Nat) (hinv : c3inv q m d)
    (hd : d ≤ tc) (hretry : ¬ (m.retry_count + 1 ≤ m.max_retries))
    (hdlq : q.dead_letter_queue = some ⟨.fifo [], dlms⟩) :
    (c3cycle cid m.id tc tn q).dead_letter_queue =
      some ⟨.fifo [dlqMsg m cid tc], dlms⟩ ∧
    (c3cycle cid m.id tc tn q).container.impl.msgs = [] ∧
    (c3cycle cid m.id tc tn q).processing_messages = [] ∧
    (c3cycle cid m.id tc tn q).failedList = q.failedList := by
  obtain ⟨hc, hpm⟩ := hinv
  rcases q with ⟨name, qt, ms, edl, cont, dlq, pm, met, nid, pub, comp, fail,
    lost⟩
  rcases cont with ⟨ci, cm⟩
  dsimp only at hc hpm hdlq
  subst hpm
  subst hdlq
  rcases hc with h | h | h | h <;> subst h <;>
    simp [c3cycle, MessageQueue.consume, MessageQueue.consumeLoop,
      MessageQueue.nack, get_single_fifo, get_single_lifo, get_single_prio,
      get_single_delay cm m d tc hd, put_empty_fifo, assocSet, assocFind,
      assocErase, hretry, consumedMsg, dlqMsg, QueueImpl.msgs]

theorem c3cycle_failed (q : MessageQueue) (m : Message) (d : Time)
    (cid : String) (tc tn : Time) (hinv : c3inv q m d) (hd : d ≤ tc)
    (hretry : ¬ (m.retry_count + 1 ≤ m.max_retries))
    (hdlq : q.dead_letter_queue = none) :
    (c3cycle cid m.id tc tn q).failedList =
      q.failedList ++ [failMsg m cid tc] ∧
    (c3cycle cid m.id tc tn q).container.impl.msgs = [] ∧
    (c3cycle cid m.id tc tn q).processing_messages = [] ∧
    (c3cycle cid m.id tc tn q).dead_letter_queue = none := by
  obtain ⟨hc, hpm⟩ := hinv
  rcases q with ⟨name, qt, ms, edl, cont, dlq, pm, met, nid, pub, comp, fail,
    lost⟩
  rcases cont with ⟨ci, cm⟩
  dsimp only at hc hpm hdlq
  subst hpm
  subst hdlq
  rcases hc with h | h | h | h <;> subst h <;>
    simp [c3cycle, MessageQueue.consume, MessageQueue.consumeLoop,
      MessageQueue.nack, get_single_fifo, get_single_lifo, get_single_prio,
      get_single_delay cm m d tc hd, assocSet, assocFind, assocErase, hretry,
      consumedMsg, failMsg, QueueImpl.msgs]

/-- The single message after its `k`-th requeueing `nack` (consumed at time
`t` in that cycle). -/
def msgAt (msg : Message) (cid : String) (t : Time) (k : Nat) : Message :=
  { msg with
    retry_count := k
    status := .pending
    consumer_id := some cid
    processed_at := some t }

theorem c3run_inv (q1 : MessageQueue) (msg : Message) (d0 : Time)
    (cid : String) (times : Nat → Time)
    (hmono : ∀ i, times i ≤ times (i + 1))
    (hinv : c3inv q1 msg d0) (hd0 : d0 ≤ times 0)
    (hdu : msg.delay_until = none) (hrc : msg.retry_count = 0) :
    ∀ k, 1 ≤ k → k ≤ msg.max_retries →
      c3inv (c3run cid msg.id times q1 k)
        (msgAt msg cid (times (2 * (k - 1))) k) (times (2 * k - 1)) ∧
      (c3run cid msg.id times q1 k).dead_letter_queue =
        q1.dead_letter_queue ∧
      (c3run cid msg.id times q1 k).failedList = q1.failedList := by
  intro k
  induction k with
  | zero => intro h1 h2; exact absurd h1 (by omega)
  | succ k ih =>
    intro h1 h2
    by_cases hk : k = 0
    · subst hk
      have hstep := c3cycle_requeue q1 msg d0 cid (times 0) (times 1) hinv
        hd0 hdu (by omega)
      have hmsg : nextMsg msg cid (times 0) =
          msgAt msg cid (times (2 * (1 - 1))) 1 := by
        simp [nextMsg, msgAt, hrc]
      refine ⟨?_, hstep.2.1, hstep.2.2⟩
      rw [← hmsg]
      exact hstep.1
    · have hk1 : 1 ≤ k := by omega
      obtain ⟨hinvk, hdlqk, hfailk⟩ := ih hk1 (by omega)
      have hd : times (2 * k - 1) ≤ times (2 * k) := by
        have h := hmono (2 * k - 1)
        rw [show 2 * k - 1 + 1 = 2 * k by omega] at h
        exact h
      have hdu' : (msgAt msg cid (times (2 * (k - 1))) k).delay_until =
          none := hdu
      have hretry : (msgAt msg cid (times (2 * (k - 1))) k).retry_count + 1 ≤
          (msgAt msg cid (times (2 * (k - 1))) k).max_retries := by
        show k + 1 ≤ msg.max_retries
        omega
      have hstep := c3cycle_requeue (c3run cid msg.id times q1 k)
        (msgAt msg cid (times (2 * (k - 1))) k) (times (2 * k - 1)) cid
        (times (2 * k)) (times (2 * k + 1)) hinvk hd hdu' hretry
      refine ⟨?_, hstep.2.1.trans hdlqk, hstep.2.2.trans hfailk⟩
      exact hstep.1

theorem publish_start (name : String) (qt : QueueType) (maxsize : Nat)
    (edl : Bool) (dlms : Nat) (t0 : Time) (payload : Nat)
    (prio : MessagePriority) (headers : List (String × Nat)) (tp : Time) :
    c3inv (applyQueueOp (MessageQueue.mk0 name qt maxsize edl dlms t0)
        (.publish payload prio none headers tp))
      (mkMessage 0 payload prio none headers tp) tp ∧
    (applyQueueOp (MessageQueue.mk0 name qt maxsize edl dlms t0)
        (.publish payload prio none headers tp)).dead_letter_queue =
      (if edl then some ⟨.fifo [], dlms⟩ else none) ∧
    (applyQueueOp (MessageQueue.mk0 name qt maxsize edl dlms t0)
        (.publish payload prio none headers tp)).failedList = [] := by
  cases qt <;>
    simp [applyQueueOp, MessageQueue.publish, MessageQueue.mk0,
      QueueType.emptyImpl, put_empty_fifo, put_empty_lifo, put_empty_prio,
      put_empty_delay, mkMessage, c3inv]

theorem c3inv_msgs (q : MessageQueue) (m : Message) (d : Time)
    (hinv : c3inv q m d) : q.container.impl.msgs = [m] := by
  rcases hinv.1 with h | h | h | h <;> rw [h] <;> simp [QueueImpl.msgs]

/-- C3: a message published into a fresh queue (any variant, any capacities)
and then repeatedly consumed and nacked with `requeue=true`: each of the
first `max_retries` nacks re-inserts it into the pending container with
status `PENDING` and `retry_count` equal to the number of nacks so far, and
the `max_retries + 1`-st nack puts it (with status `DEAD_LETTER`) into the
dead-letter buffer when dead-lettering is enabled, else marks it `FAILED`
and drops it (ghost `failedList`).  `publish` always builds the message with
the dataclass default `max_retries = 3`. -/
theorem C3_retries_then_dead_letter (name : String) (qt : QueueType)
    (maxsize : Nat) (edl : Bool) (dlms : Nat) (t0 : Time) (payload : Nat)
    (prio : MessagePriority) (headers : List (String × Nat)) (tp : Time)
    (cid : String) (times : Nat → Time)
    (hmono : ∀ i, times i ≤ times (i + 1)) (htp : tp ≤ times 0) :
    let msg := mkMessage 0 payload prio none headers tp
    let q1 := applyQueueOp (MessageQueue.mk0 name qt maxsize edl dlms t0)
      (QueueOp.publish payload prio none headers tp)
    (∀ k, 1 ≤ k → k ≤ msg.max_retries →
      (c3run cid msg.id times q1 k).container.impl.msgs =
        [msgAt msg cid (times (2 * (k - 1))) k] ∧
      (c3run cid msg.id times q1 k).processing_messages = []) ∧
    (edl = true →
      (c3run cid msg.id times q1 (msg.max_retries + 1)).dead_letter_queue =
        some ⟨.fifo [dlqMsg (msgAt msg cid
          (times (2 * (msg.max_retries - 1))) msg.max_retries) cid
          (times (2 * msg.max_retries))], dlms⟩ ∧
      (c3run cid msg.id times q1
        (msg.max_retries + 1)).container.impl.msgs = [] ∧
      (c3run cid msg.id times q1
        (msg.max_retries + 1)).processing_messages = []) ∧
    (edl = false →
      (c3run cid msg.id times q1 (msg.max_retries + 1)).failedList =
        [failMsg (msgAt msg cid (times (2 * (msg.max_retries - 1)))
          msg.max_retries) cid (times (2 * msg.max_retries))] ∧
      (c3run cid msg.id times q1
        (msg.max_retries + 1)).container.impl.msgs = [] ∧
      (c3run cid msg.id times q1
        (msg.max_retries + 1)).processing_messages = [] ∧
      (c3run cid msg.id times q1
        (msg.max_retries + 1)).dead_letter_queue = none) := by
  intro msg q1
  obtain ⟨hinv1, hdlq1, hfail1⟩ :=
    publish_start name qt maxsize edl dlms t0 payload prio headers tp
  have hdu : msg.delay_until = none := rfl
  have hrc : msg.retry_count = 0 := rfl
  have hmain := c3run_inv q1 msg tp cid times hmono hinv1 htp hdu hrc
  have hmr : (1 : Nat) ≤ msg.max_retries := by
    show (1 : Nat) ≤ 3
    omega
  have hd : times (2 * msg.max_retries - 1) ≤ times (2 * msg.max_retries) :=
    by
    have h := hmono (2 * msg.max_retries - 1)
    rw [show 2 * msg.max_retries - 1 + 1 = 2 * msg.max_retries by omega] at h
    exact h
  have hretry : ¬ ((msgAt msg cid (times (2 * (msg.max_retries - 1)))
      msg.max_retries).retry_count + 1 ≤
        (msgAt msg cid (times (2 * (msg.max_retries - 1)))
          msg.max_retries).max_retries) := by
    show ¬ (msg.max_retries + 1 ≤ msg.max_retries)
    omega
  refine ⟨?_, ?_, ?_⟩
  · intro k hk1 hk2
    obtain ⟨hinvk, h2, h3⟩ := hmain k hk1 hk2
    exact ⟨c3inv_msgs _ _ _ hinvk, hinvk.2⟩
  · intro hedl
    obtain ⟨hinvk, hdlqk, hfailk⟩ := hmain msg.max_retries hmr (le_refl _)
    have hdlq : (c3run cid msg.id times q1
        msg.max_retries).dead_letter_queue = some ⟨.fifo [], dlms⟩ := by
      rw [hdlqk, hdlq1, hedl]
      rfl
    have hstep := c3cycle_deadletter
      (c3run cid msg.id times q1 msg.max_retries)
      (msgAt msg cid (times (2 * (msg.max_retries - 1))) msg.max_retries)
      (times (2 * msg.max_retries - 1)) cid (times (2 * msg.max_retries))
      (times (2 * msg.max_retries + 1)) dlms hinvk hd hretry hdlq
    exact ⟨hstep.1, hstep.2.1, hstep.2.2.1⟩
  · intro hedl
    obtain ⟨hinvk, hdlqk, hfailk⟩ := hmain msg.max_retries hmr (le_refl _)
    have hdlq : (c3run cid msg.id times q1
        msg.max_retries).dead_letter_queue = none := by
      rw [hdlqk, hdlq1, hedl]
      rfl
    have hstep := c3cycle_failed
      (c3run cid msg.id times q1 msg.max_retries)
      (msgAt msg cid (times (2 * (msg.max_retries - 1))) msg.max_retries)
      (times (2 * msg.max_retries - 1)) cid (times (2 * msg.max_retries))
      (times (2 * msg.max_retries + 1)) hinvk hd hretry hdlq
    refine ⟨?_, hstep.2.1, hstep.2.2.1, hstep.2.2.2⟩
    have hrun : c3run cid msg.id times q1 (msg.max_retries + 1) =
        c3cycle cid (msgAt msg cid (times (2 * (msg.max_retries - 1)))
          msg.max_retries).id (times (2 * msg.max_retries))
          (times (2 * msg.max_retries + 1))
          (c3run cid msg.id times q1 msg.max_retries) := rfl
    rw [hrun, hstep.1, hfailk, hfail1]
    rfl

theorem C3_retries_then_dead_letter_witness :
    (c3run "c" 0 (fun _ => (0 : Time))
        (applyQueueOp (MessageQueue.mk0 "q" QueueType.fifo 0 true 1000 0)
          (QueueOp.publish 0 MessagePriority.normal none [] 0))
        4).dead_letter_queue =
      some ⟨.fifo [dlqMsg (msgAt
        (mkMessage 0 0 MessagePriority.normal none [] 0) "c" 0 3) "c" 0],
        1000⟩ :=
  ((C3_retries_then_dead_letter "q" QueueType.fifo 0 true 1000 0 0
      MessagePriority.normal [] 0 "c" (fun _ => 0) (fun _ => le_refl _)
      (le_refl _)).2.1 rfl).1

theorem put_succeeds (c : QueueContainer) (m : Message) (now : Time)
    (hms : c.maxsize = 0) :
    (c.put m now).1 = true ∧
    List.Perm (c.put m now).2.impl.msgs (m :: c.impl.msgs) ∧
    (c.put m now).2.maxsize = 0 := by
  rcases c with ⟨ci, cm⟩
  dsimp only at hms
  subst hms
  have hg : (decide ((0:Nat) > 0) && decide (QueueImpl.size ci ≥ 0)) =
      false := by simp
  unfold QueueContainer.put
  dsimp only
  rw [hg]
  cases ci with
  | fifo l => simpa [QueueImpl.msgs] using List.perm_append_singleton m l
  | lifo l => simpa [QueueImpl.msgs] using List.perm_append_singleton m l
  | prio h =>
    simpa [QueueImpl.msgs] using heappush_perm Message.lt h m
  | delay h =>
    refine ⟨rfl, ?_, rfl⟩
    dsimp only [QueueImpl.msgs]
    have hp := heappush_perm delayLt h
      ((match m.delay_until with
        | none => now
        | some d => if d = 0 then now else d), m)
    exact hp.map Prod.snd

theorem get_shape (c : QueueContainer) (now : Time) :
    ((c.get now).1 = none ∧ (c.get now).2 = c) ∨
    (∃ m, (c.get now).1 = some m ∧
      List.Perm c.impl.msgs (m :: (c.get now).2.impl.msgs) ∧
      (c.get now).2.maxsize = c.maxsize) := by
  rcases c with ⟨ci, cm⟩
  cases ci with
  | fifo l =>
    cases l with
    | nil => exact Or.inl ⟨rfl, rfl⟩
    | cons m rest =>
      exact Or.inr ⟨m, rfl, by simp [QueueContainer.get, QueueImpl.msgs], rfl⟩
  | lifo l =>
    cases hl : l.getLast? with
    | none =>
      refine Or.inl ?_
      constructor <;> simp [QueueContainer.get, hl]
    | some m =>
      have hg : QueueContainer.get ⟨.lifo l, cm⟩ now =
          (some m, ⟨.lifo l.dropLast, cm⟩) := by
        simp [QueueContainer.get, hl]
      have hne : l ≠ [] := by
        intro h
        rw [h] at hl
        simp at hl
      have hlast : l.getLast hne = m := by
        have h2 := List.getLast?_eq_getLast l hne
        rw [h2, Option.some.injEq] at hl
        exact hl
      have hdl : l.dropLast ++ [m] = l := by
        rw [← hlast]
        exact List.dropLast_append_getLast hne
      refine Or.inr ⟨m, ?_, ?_, ?_⟩ <;> rw [hg]
      · dsimp only [QueueImpl.msgs]
        conv_lhs => rw [← hdl]
        exact List.perm_append_singleton m l.dropLast
  | prio h =>
    cases hp : heappop Message.lt h with
    | none =>
      refine Or.inl ?_
      constructor <;> simp [QueueContainer.get, hp]
    | some p =>
      obtain ⟨m, h'⟩ := p
      have hg : QueueContainer.get ⟨.prio h, cm⟩ now =
          (some m, ⟨.prio h', cm⟩) := by
        simp [QueueContainer.get, hp]
      refine Or.inr ⟨m, ?_, ?_, ?_⟩ <;> rw [hg]
      · exact heappop_perm Message.lt h m h' hp
  | delay h =>
    cases h with
    | nil => exact Or.inl ⟨rfl, rfl⟩
    | cons p t =>
      obtain ⟨d, m⟩ := p
      by_cases hd : (decide (d ≤ now)) = true
      · have hp : ∃ r h', heappop delayLt ((d, m) :: t) = some (r, h') := by
          cases t with
          | nil => exact ⟨(d, m), [], rfl⟩
          | cons a as => exact ⟨(d, m), _, rfl⟩
        obtain ⟨r, h', hp⟩ := hp
        have hg : QueueContainer.get ⟨.delay ((d, m) :: t), cm⟩ now =
            (some r.2, ⟨.delay h', cm⟩) := by
          simp [QueueContainer.get, hd, hp]
        refine Or.inr ⟨r.2, ?_, ?_, ?_⟩ <;> rw [hg]
        · dsimp only [QueueImpl.msgs]
          exact (heappop_perm delayLt ((d, m) :: t) r h' hp).map Prod.snd
      · refine Or.inl ?_
        constructor <;> simp [QueueContainer.get, hd]


theorem assocSet_not_mem {K A : Type} [DecidableEq K] (l : List (K × A))
    (k : K) (v : A) (h : ¬ k ∈ l.map Prod.fst) :
    assocSet l k v = l ++ [(k, v)] := by
  induction l with
  | nil => rfl
  | cons p rest ih =>
    obtain ⟨k', a⟩ := p
    simp only [List.map_cons, List.mem_cons, not_or] at h
    have hne : ¬ (k' = k) := fun he => h.1 he.symm
    simp only [assocSet, if_neg hne, List.cons_append, List.cons.injEq,
      true_and]
    exact ih h.2

theorem assocFind_mem {K A : Type} [DecidableEq K] :
    ∀ {l : List (K × A)} {k : K} {v : A},
      assocFind l k = some v → (k, v) ∈ l := by
  intro l
  induction l with
  | nil => intro k v h; simp [assocFind] at h
  | cons p rest ih =>
    intro k v h
    obtain ⟨k', a⟩ := p
    by_cases he : k' = k
    · subst he
      simp [assocFind] at h
      subst h
      exact List.mem_cons_self _ _
    · simp only [assocFind, if_neg he] at h
      exact List.mem_cons_of_mem _ (ih h)

theorem assocErase_map_fst {K A : Type} [DecidableEq K] [BEq K] [LawfulBEq K]
    (l : List (K × A)) (k : K) :
    (assocErase l k).map Prod.fst = (l.map Prod.fst).erase k := by
  induction l with
  | nil => rfl
  | cons p rest ih =>
    obtain ⟨k', a⟩ := p
    by_cases he : k' = k
    · subst he
      simp [assocErase, List.erase_cons]
    · simp [assocErase, List.erase_cons, he, ih]

theorem assocErase_subset {K A : Type} [DecidableEq K]
    {l : List (K × A)} {k : K} : ∀ p ∈ assocErase l k, p ∈ l := by
  induction l with
  | nil => intro p hp; simp [assocErase] at hp
  | cons q rest ih =>
    intro p hp
    obtain ⟨k', a⟩ := q
    by_cases he : k' = k
    · subst he
      simp only [assocErase, if_pos rfl] at hp
      exact List.mem_cons_of_mem _ hp
    · simp only [assocErase, if_neg he, List.mem_cons] at hp
      rcases hp with hp | hp
      · exact hp ▸ List.mem_cons_self _ _
      · exact List.mem_cons_of_mem _ (ih p hp)

/-- The invariant behind C1, for a queue whose container and dead-letter
buffer are unbounded (`maxsize = 0`): every published id sits in exactly one
of pending / in-flight / dead-letter / terminal (completed or `FAILED`),
exactly once; ids in flight key their own message; published ids are below
the fresh-id counter. -/
def QueueInv (q : MessageQueue) : Prop :=
  q.container.maxsize = 0 ∧
  (∀ d, q.dead_letter_queue = some d → d.maxsize = 0) ∧
  (∀ id ∈ q.published, id < q.nextId) ∧
  (∀ p ∈ q.processing_messages, p.2.id = p.1) ∧
  (∀ id : Nat, q.allIds.count id = if id ∈ q.published then 1 else 0)

theorem publish_inv (q : MessageQueue) (payload : Nat)
    (prio : MessagePriority) (delay : Option Time)
    (headers : List (String × Nat)) (now : Time) (hinv : QueueInv q) :
    QueueInv (applyQueueOp q (.publish payload prio delay headers now)) := by
  obtain ⟨h1, h2, h3, h4, h5⟩ := hinv
  have hput := put_succeeds q.container
    (mkMessage q.nextId payload prio delay headers now) now h1
  have happ : applyQueueOp q (.publish payload prio delay headers now) =
      { q with
        container := (q.container.put
          (mkMessage q.nextId payload prio delay headers now) now).2
        nextId := q.nextId + 1
        published := q.published ++
          [(mkMessage q.nextId payload prio delay headers now).id]
        metrics :=
          { q.metrics with
            messages_published := q.metrics.messages_published + 1
            last_activity := now } } := by
    simp [applyQueueOp, MessageQueue.publish, hput.1]
  rw [happ]
  have hfresh : q.nextId ∉ q.published := fun hmem => lt_irrefl _ (h3 _ hmem)
  refine ⟨hput.2.2, h2, ?_, h4, ?_⟩
  · intro id hid
    show id < q.nextId + 1
    rcases List.mem_append.mp hid with h | h
    · have := h3 id h
      omega
    · simp [mkMessage] at h
      omega
  · intro id
    have h5' := h5 id
    have hpc := (hput.2.1.map Message.id).count_eq id
    simp only [MessageQueue.allIds, MessageQueue.pendingIds,
      MessageQueue.processingIds, MessageQueue.dlqIds,
      MessageQueue.terminalIds, List.count_append] at h5' ⊢
    rw [hpc, List.map_cons, List.count_cons]
    simp only [mkMessage, beq_iff_eq, List.mem_append, List.mem_singleton]
    by_cases hid : id = q.nextId
    · subst hid
      simp only [if_pos rfl, hfresh, or_true, if_true, eq_self_iff_true]
      simp [hfresh] at h5'
      omega
    · have hid' : ¬ (q.nextId = id) := fun h => hid h.symm
      simp only [hid', if_false, hid, or_false]
      omega

theorem consumeLoop_inv (cid : String) (now : Time) :
    ∀ (n : Nat) (q : MessageQueue), QueueInv q →
      QueueInv (MessageQueue.consumeLoop cid now n q).2 := by
  intro n
  induction n with
  | zero => intro q h; exact h
  | succ n ih =>
    intro q hinv
    obtain ⟨h1, h2, h3, h4, h5⟩ := hinv
    rcases get_shape q.container now with ⟨hg1, hg2⟩ | ⟨m, hg1, hperm, hms⟩
    · simp only [MessageQueue.consumeLoop, hg1]
      exact ⟨h1, h2, h3, h4, h5⟩
    · have hmmem : m.id ∈ q.container.impl.msgs.map Message.id :=
        List.mem_map.mpr ⟨m, hperm.mem_iff.mpr (List.mem_cons_self m _), rfl⟩
    
      have hpub : m.id ∈ q.published := by
        by_contra hnp
        have h5m := h5 m.id
        rw [if_neg hnp] at h5m
        simp only [MessageQueue.allIds, MessageQueue.pendingIds,
          MessageQueue.processingIds, MessageQueue.dlqIds,
          MessageQueue.terminalIds, List.count_append] at h5m
        have hc := List.count_pos_iff.mpr hmmem
        omega
      have hnotproc : ¬ m.id ∈ q.processing_messages.map Prod.fst := by
        intro hmem
        have h5m := h5 m.id
        rw [if_pos hpub] at h5m
        simp only [MessageQueue.allIds, MessageQueue.pendingIds,
          MessageQueue.processingIds, MessageQueue.dlqIds,
          MessageQueue.terminalIds, List.count_append] at h5m
        have hc1 := List.count_pos_iff.mpr hmmem
        have hc2 := List.count_pos_iff.mpr hmem
        omega
      simp only [MessageQueue.consumeLoop, hg1]
      refine ih _ ⟨hms.trans h1, h2, h3, ?_, ?_⟩
      · rw [assocSet_not_mem q.processing_messages _ _ hnotproc]
        intro p hp
        rcases List.mem_append.mp hp with hp | hp
        · exact h4 p hp
        · rw [List.mem_singleton] at hp
          subst hp
          rfl
      · intro id
        have h5' := h5 id
        have hpc := (hperm.map Message.id).count_eq id
        rw [List.map_cons, List.count_cons] at hpc
        rw [assocSet_not_mem q.processing_messages _ _ hnotproc]
        simp only [MessageQueue.allIds, MessageQueue.pendingIds,
          MessageQueue.processingIds, MessageQueue.dlqIds,
          MessageQueue.terminalIds, List.count_append, List.map_append,
          List.map_cons, List.map_nil, List.count_cons, List.count_nil,
          beq_iff_eq] at h5' ⊢
        simp only [beq_iff_eq] at hpc
        rw [hpc] at h5'
        by_cases hid : m.id = id
        · simp only [hid, eq_self_iff_true, if_true] at h5' ⊢
          omega
        · simp only [if_neg hid] at h5' ⊢
          omega

theorem consume_inv (q : MessageQueue) (cid : String) (batch_size : Nat)
    (now : Time) (hinv : QueueInv q) :
    QueueInv (q.consume cid batch_size now).2 :=
  consumeLoop_inv cid now batch_size q hinv

theorem ack_inv (q : MessageQueue) (mid : Nat) (now : Time)
    (hinv : QueueInv q) : QueueInv (q.acknowledge mid now).2 := by
  obtain ⟨h1, h2, h3, h4, h5⟩ := hinv
  cases hf : assocFind q.processing_messages mid with
  | none =>
    simp only [MessageQueue.acknowledge, hf]
    exact ⟨h1, h2, h3, h4, h5⟩
  | some m =>
    have hm := assocFind_mem hf
    have hmid : m.id = mid := h4 _ hm
    have hmem : mid ∈ q.processing_messages.map Prod.fst :=
      List.mem_map.mpr ⟨(mid, m), hm, rfl⟩
    have hc := List.count_pos_iff.mpr hmem
    simp only [MessageQueue.acknowledge, hf]
    refine ⟨h1, h2, h3, ?_, ?_⟩
    · intro p hp
      exact h4 p (assocErase_subset p hp)
    · intro id
      have h5' := h5 id
      simp only [MessageQueue.allIds, MessageQueue.pendingIds,
        MessageQueue.processingIds, MessageQueue.dlqIds,
        MessageQueue.terminalIds, List.count_append, List.map_append,
        List.map_cons, List.map_nil, List.count_cons, List.count_nil,
        beq_iff_eq] at h5' ⊢
      rw [assocErase_map_fst, hmid]
      by_cases hid : id = mid
      · subst hid
        rw [List.count_erase_self]
        simp only [eq_self_iff_true, if_true]
        omega
      · rw [List.count_erase_of_ne hid]
        have hid' : ¬ (mid = id) := fun h => hid h.symm
        simp only [if_neg hid']
        omega

theorem nack_inv (q : MessageQueue) (mid : Nat) (requeue : Bool)
    (now : Time) (hinv : QueueInv q) : QueueInv (q.nack mid requeue now).2 := by
  obtain ⟨h1, h2, h3, h4, h5⟩ := hinv
  cases hf : assocFind q.processing_messages mid with
  | none =>
    simp only [MessageQueue.nack, hf]
    exact ⟨h1, h2, h3, h4, h5⟩
  | some m0 =>
    have hm := assocFind_mem hf
    have hmid : m0.id = mid := h4 _ hm
    have hmem : mid ∈ q.processing_messages.map Prod.fst :=
      List.mem_map.mpr ⟨(mid, m0), hm, rfl⟩
    have hc := List.count_pos_iff.mpr hmem
    have hproc : ∀ p ∈ assocErase q.processing_messages mid, p.2.id = p.1 :=
      fun p hp => h4 p (assocErase_subset p hp)
    simp only [MessageQueue.nack, hf]
    by_cases hreq :
        (requeue && decide (m0.retry_count + 1 ≤ m0.max_retries)) = true
    · rw [if_pos hreq]
      have hput := put_succeeds q.container
        { m0 with
          retry_count := m0.retry_count + 1
          status := MessageStatus.pending } now h1
      refine ⟨hput.2.2, h2, h3, hproc, ?_⟩
      intro id
      have h5' := h5 id
      have hpc := (hput.2.1.map Message.id).count_eq id
      rw [List.map_cons, List.count_cons] at hpc
      simp only [beq_iff_eq] at hpc
      simp only [MessageQueue.allIds, MessageQueue.pendingIds,
        MessageQueue.processingIds, MessageQueue.dlqIds,
        MessageQueue.terminalIds, List.count_append, List.map_append,
        List.map_cons, List.map_nil, List.count_cons, List.count_nil,
        beq_iff_eq] at h5' ⊢
      rw [hpc, assocErase_map_fst, hmid]
      by_cases hid : mid = id
      · subst hid
        rw [List.count_erase_self]
        simp only [eq_self_iff_true, if_true]
        omega
      · have hid' : ¬ (id = mid) := fun h => hid h.symm
        rw [List.count_erase_of_ne hid']
        simp only [if_neg hid]
        omega
    · rw [if_neg hreq]
      cases hdlq : q.dead_letter_queue with
      | some dl =>
        have hdl0 : dl.maxsize = 0 := h2 dl hdlq
        have hput := put_succeeds dl
          { m0 with
            retry_count := m0.retry_count + 1
            status := MessageStatus.dead_letter } now hdl0
        dsimp only
        refine ⟨h1, ?_, h3, hproc, ?_⟩
        · intro d hd
          simp only [Option.some.injEq] at hd
          rw [← hd]
          exact hput.2.2
        · intro id
          have h5' := h5 id
          have hpc := (hput.2.1.map Message.id).count_eq id
          rw [List.map_cons, List.count_cons] at hpc
          simp only [beq_iff_eq] at hpc
          simp only [MessageQueue.allIds, MessageQueue.pendingIds,
            MessageQueue.processingIds, MessageQueue.dlqIds,
            MessageQueue.terminalIds, hdlq, List.count_append,
            List.map_append, List.map_cons, List.map_nil, List.count_cons,
            List.count_nil, beq_iff_eq] at h5' ⊢
          rw [hpc, assocErase_map_fst, hmid]
          by_cases hid : mid = id
          · subst hid
            rw [List.count_erase_self]
            simp only [eq_self_iff_true, if_true]
            omega
          · have hid' : ¬ (id = mid) := fun h => hid h.symm
            rw [List.count_erase_of_ne hid']
            simp only [if_neg hid]
            omega
      | none =>
        dsimp only
        refine ⟨h1, ?_, h3, hproc, ?_⟩
        · intro d hd
          simp at hd
        intro id
        have h5' := h5 id
        simp only [MessageQueue.allIds, MessageQueue.pendingIds,
          MessageQueue.processingIds, MessageQueue.dlqIds,
          MessageQueue.terminalIds, hdlq, List.count_append,
          List.map_append, List.map_cons, List.map_nil, List.count_cons,
          List.count_nil, beq_iff_eq] at h5' ⊢
        rw [assocErase_map_fst, hmid]
        by_cases hid : mid = id
        · subst hid
          rw [List.count_erase_self]
          simp only [eq_self_iff_true, if_true]
          omega
        · have hid' : ¬ (id = mid) := fun h => hid h.symm
          rw [List.count_erase_of_ne hid']
          simp only [if_neg hid]
          omega

theorem applyQueueOp_inv (q : MessageQueue) (op : QueueOp) (hinv : QueueInv q) :
    QueueInv (applyQueueOp q op) := by
  cases op with
  | publish payload priority delay headers now =>
    exact publish_inv q payload priority delay headers now hinv
  | consume cid batch_size now => exact consume_inv q cid batch_size now hinv
  | acknowledge mid now => exact ack_inv q mid now hinv
  | nack mid requeue now => exact nack_inv q mid requeue now hinv

theorem runQueueOps_inv :
    ∀ (ops : List QueueOp) (q : MessageQueue), QueueInv q →
      QueueInv (runQueueOps q ops) := by
  intro ops
  induction ops with
  | nil => intro q h; exact h
  | cons op rest ih =>
    intro q h
    exact ih (applyQueueOp q op) (applyQueueOp_inv q op h)

theorem mk0_inv (name : String) (qt : QueueType) (edl : Bool) (t0 : Time) :
    QueueInv (MessageQueue.mk0 name qt 0 edl 0 t0) := by
  refine ⟨rfl, ?_, ?_, ?_, ?_⟩
  · intro d hd
    cases edl <;> simp [MessageQueue.mk0] at hd
    rw [← hd]
  · intro id hid
    simp [MessageQueue.mk0] at hid
  · intro p hp
    simp [MessageQueue.mk0] at hp
  · intro id
    cases qt <;> cases edl <;>
      simp [MessageQueue.mk0, MessageQueue.allIds, MessageQueue.pendingIds,
        MessageQueue.processingIds, MessageQueue.dlqIds,
        MessageQueue.terminalIds, QueueType.emptyImpl, QueueImpl.msgs]

/-- C1 (amended): in a queue whose container and dead-letter buffer are
unbounded (`maxsize = 0` and `dead_letter_maxsize = 0`, so no `put` result
is silently dropped), after any sequence of publish / consume / acknowledge
/ nack operations every published id occurs exactly once across pending,
in-flight, dead-letter and terminal (acknowledged or `FAILED`) -- `allIds`
lists these with multiplicity. -/
theorem C1_published_id_exactly_once (name : String) (qt : QueueType)
    (edl : Bool) (t0 : Time) (ops : List QueueOp) (id : Nat)
    (hid : id ∈
      (runQueueOps (MessageQueue.mk0 name qt 0 edl 0 t0) ops).published) :
    (runQueueOps (MessageQueue.mk0 name qt 0 edl 0 t0)
      ops).allIds.count id = 1 := by
  have h := (runQueueOps_inv ops (MessageQueue.mk0 name qt 0 edl 0 t0)
    (mk0_inv name qt edl t0)).2.2.2.2 id
  rw [if_pos hid] at h
  exact h

def c1ops : List QueueOp :=
  [.publish 10 .normal none [] 0, .consume "c" 1 0, .nack 0 true 0,
    .consume "c" 1 0, .acknowledge 0 0]

theorem C1_published_id_exactly_once_witness :
    0 ∈ (runQueueOps (MessageQueue.mk0 "q" .fifo 0 true 0 0)
        c1ops).published ∧
    (runQueueOps (MessageQueue.mk0 "q" .fifo 0 true 0 0)
        c1ops).allIds.count 0 = 1 :=
  ⟨by decide,
    C1_published_id_exactly_once "q" .fifo true 0 c1ops 0 (by decide)⟩

def c1badOps : List QueueOp :=
  [.publish 10 .normal none [] 0, .consume "c" 1 0,
    .publish 11 .normal none [] 0, .nack 0 true 0]

/-- C1 counterexample: in a FIFO queue with `maxsize = 1`, id `0` is
published, consumed, and nacked with `requeue=true` while the container is
full: `nack` ignores the `False` returned by `put` (message_queue.py:638),
so the message lands in no container at all (ghost `lostList`), refuting
"a nack that requeues ... always places it in the corresponding
container". -/
theorem C1_counterexample_requeue_into_full_queue :
    0 ∈ (runQueueOps (MessageQueue.mk0 "q" .fifo 1 true 1000 0)
        c1badOps).published ∧
    (runQueueOps (MessageQueue.mk0 "q" .fifo 1 true 1000 0)
        c1badOps).allIds.count 0 = 0 ∧
    (runQueueOps (MessageQueue.mk0 "q" .fifo 1 true 1000 0)
        c1badOps).lostList.map Message.id = [0] := by
  refine ⟨by decide, by decide, by decide⟩

def c3badOps : List QueueOp :=
  [.publish 10 .normal none [] 0, .consume "c" 1 0, .nack 0 true 0,
    .consume "c" 1 0, .nack 0 true 0, .consume "c" 1 0, .nack 0 true 0,
    .consume "c" 1 0, .nack 0 true 0,
    .publish 11 .normal none [] 0, .consume "c" 1 0, .nack 1 true 0,
    .consume "c" 1 0, .nack 1 true 0, .consume "c" 1 0, .nack 1 true 0,
    .consume "c" 1 0, .nack 1 true 0]

/-- C3 counterexample: with `dead_letter_maxsize = 1`, message `0` is
dead-lettered first and fills the buffer; message `1` is then consumed and
nacked (`requeue=true`) `max_retries + 1 = 4` times with dead-lettering
enabled, yet it does **not** reside in the dead-letter buffer: the final
`nack` ignores the `False` from `_dead_letter_queue.put`
(message_queue.py:648-651), so the message is dropped (ghost `lostList`). -/
theorem C3_counterexample_dead_letter_buffer_full :
    (runQueueOps (MessageQueue.mk0 "q" .fifo 0 true 1 0)
        c3badOps).dlqIds = [0] ∧
    (runQueueOps (MessageQueue.mk0 "q" .fifo 0 true 1 0)
        c3badOps).lostList.map Message.id = [1] ∧
    (runQueueOps (MessageQueue.mk0 "q" .fifo 0 true 1 0)
        c3badOps).allIds.count 1 = 0 := by
  refine ⟨by decide, by decide, by decide⟩
